import Mathlib

/-!
# Xapian snippet generator

A shallow embedding of `xapian-core/queryparser/snippetgenerator_internal.cc`
and `snippetgenerator.cc`: the word scanner of `accept_text`, the snippet
state machine (`accept_term`, `accept_nonword_char`, `push_context`), the
result selector (`push_result`) and the facade operations.

Conventions of the embedding.

* A `std::string` is the list of the code points that were appended to it
  with `Unicode::append_utf8`; a `Utf8Iterator` is the list of the code
  points it still has to yield.  Byte lengths (`term.size()`) are computed
  with `str_size`.
* `Xapian::termcount` is `unsigned` (32 bits; xapian/types.h): `termpos`,
  `xpos`, `lastpos`, `horizon`, `nwhitespace` and `ignore_1grams` are naturals
  below `2^32` and every `+`, `-`, `++` on them wraps (`uadd`, `usub`).
* `std::deque`, `std::set` and `unordered_set` are lists; a set is a list
  without repetition kept so by `set_insert`, its `size()` is the length.
  Sizes of containers stay below `2^32`, so `size_t` sums do not wrap and the
  conversion of a size to `unsigned` is the identity.
* `accept_text` is modelled with CJK n-grams disabled (`CJK::is_cjk_enabled()`
  false; the CJK tokenizer is not part of the sources): the calls it makes are
  listed by `tokenize` and handed to the state machine by `deliver`.  The
  state machine itself (`accept_term`) handles every `ngram_len`.
* The Unicode tables of `xapian/unicode.h` are a parameter (`Unicode`).
-/

namespace Xapian

/-- A string, as the sequence of code points appended to it. -/
abbrev Str := List Nat

/-- Addition on `unsigned` (32 bits). -/
def uadd (a b : Nat) : Nat := (a + b) % 4294967296

/-- Subtraction on `unsigned` (32 bits): `a - b` wraps when `b > a`. -/
def usub (a b : Nat) : Nat := (a + (4294967296 - b % 4294967296)) % 4294967296

/-- The functions of `xapian/unicode.h` the generator calls: `Unicode::is_wordchar`,
`Unicode::is_whitespace`, `Unicode::tolower` on a code point, and
`Unicode::get_category(ch) == DECIMAL_DIGIT_NUMBER`. -/
structure Unicode where
  is_wordchar : Nat → Bool
  is_whitespace : Nat → Bool
  tolower : Nat → Nat
  is_digit : Nat → Bool

/-- Number of bytes `Unicode::append_utf8` writes for a code point. -/
def utf8_size (ch : Nat) : Nat :=
  if ch < 128 then 1 else if ch < 2048 then 2 else if ch < 65536 then 3 else 4

/-- The value `std::string::size()` of a string built with `append_utf8`. -/
def str_size (t : Str) : Nat := (t.map utf8_size).sum

/-- The string overload `Unicode::tolower(const std::string &)`: every code point lowered. -/
def tolower_str (u : Unicode) (t : Str) : Str := t.map u.tolower

/-- Insertion into a `std::set<std::string>` / `unordered_set<std::string>`. -/
def set_insert (x : Str) (xs : List Str) : List Str := if x ∈ xs then xs else xs ++ [x]

/-- The class `SnippetGenerator::Internal` (snippetgenerator_internal.h), with the members
the `.cc` file uses (`matches` is spelt `matches_`, the word being reserved): the stemmer
and the normalizer are absent (`none`) or a function on
strings. -/
structure Internal where
  stemmer : Option (Str → Str)
  normalizer : Option (Str → Str)
  pre_match : Str
  post_match : Str
  inter_snippet : Str
  context_length : Nat
  matches_ : List Str
  nwhitespace : Nat
  leading_nonword : Str
  pending_1gram : Str
  ignore_1grams : Nat
  horizon : Nat
  lastpos : Nat
  xpos : Nat
  context : List Str
  result : Str
  termpos : Nat
  match_cover : List Str
  best_matchcount : Nat
  snippets : List Str

/-- The loop of `push_context` (lines 172-175): while the deque is longer than
`context_length`, pop its front and clear `leading_nonword`. -/
def pop_excess (context_length : Nat) : List Str → Str → List Str × Str
  | [], leading_nonword => ([], leading_nonword)
  | x :: xs, leading_nonword =>
    if (x :: xs).length > context_length then pop_excess context_length xs []
    else (x :: xs, leading_nonword)

/-- `SnippetGenerator::Internal::push_context` (lines 168-177). -/
def push_context (s : Internal) (term : Str) : Internal :=
  let r := pop_excess s.context_length (s.context ++ [term]) s.leading_nonword
  { s with context := r.1, leading_nonword := r.2 }

/-- The statement `if (pending_1gram != "") { push_context(pending_1gram);
pending_1gram = ""; }` of lines 83-86 (there under `ngram_len == 1`), 123-126 and 196-199. -/
def flush_pending (s : Internal) : Internal :=
  if s.pending_1gram ≠ [] then { push_context s s.pending_1gram with pending_1gram := [] }
  else s

/-- `SnippetGenerator::Internal::push_result` (lines 148-166). -/
def push_result (s : Internal) : Internal :=
  let matchcount := s.match_cover.length
  if s.result = [] ∨ matchcount = 0 then s
  else
    let s1 : Internal :=
      if matchcount > s.best_matchcount then
        { s with snippets := [s.result], best_matchcount := matchcount }
      else if matchcount = s.best_matchcount then
        { s with snippets := s.snippets ++ [s.result] }
      else s
    { s1 with result := [], match_cover := [] }

/-- The normalisation at the head of `accept_term` (lines 49-57): the normalizer when one
is set, `Unicode::tolower`, then the stemmer when one is set. -/
def term_stem (u : Unicode) (s : Internal) (term : Str) : Str :=
  let stem := match s.normalizer with
    | some n => n term
    | none => term
  let stem := tolower_str u stem
  match s.stemmer with
  | some f => f stem
  | none => stem

/-- The start of the match branch (lines 73-81): after a gap a new snippet is started with
`push_result` and `inter_snippet`, otherwise `leading_nonword` is appended; `leading_nonword`
is cleared.  In `xpos > horizon + context.size() + 1` the sum is computed in `size_t`
(64 bits), so it does not wrap. -/
def open_snippet (s : Internal) : Internal :=
  if s.xpos > s.horizon + s.context.length + 1 ∧ s.result ≠ [] then
    { push_result s with
        result := (push_result s).result ++ (push_result s).inter_snippet,
        leading_nonword := [] }
  else { s with result := s.result ++ s.leading_nonword, leading_nonword := [] }

/-- The loop "flush the before-context" (lines 88-92). -/
def flush_context (s : Internal) : Internal :=
  { s with result := s.result ++ s.context.flatten, context := [] }

/-- The end of the match branch (lines 94-105): the highlighted term, the match cover,
`ignore_1grams` and the horizon. -/
def emit_match (s : Internal) (term : Str) (ngram_len : Nat) : Internal :=
  { s with
      result := s.result ++ s.pre_match ++ term ++ s.post_match,
      match_cover := set_insert term s.match_cover,
      ignore_1grams := if ngram_len > 1 then ngram_len - 1 else 0,
      horizon := uadd (uadd s.xpos s.context_length) (if ngram_len > 1 then ngram_len - 1 else 0) }

/-- The match branch of `accept_term` (lines 72-105). -/
def accept_match (s : Internal) (term : Str) (ngram_len : Nat) : Internal :=
  let s1 := open_snippet s
  let s2 := if ngram_len = 1 then flush_pending s1 else s1
  emit_match (flush_context s2) term ngram_len

/-- The after-context branch of `accept_term` (lines 106-116). -/
def accept_after (s : Internal) (term : Str) (ngram_len : Nat) : Internal :=
  if ngram_len = 0 then { s with result := s.result ++ term }
  else if ngram_len = 1 then
    if s.ignore_1grams ≠ 0 then { s with ignore_1grams := s.ignore_1grams - 1 }
    else { s with result := s.result ++ term }
  else s

/-- The last branch of `accept_term` (lines 117-133): remember the term in the context. -/
def accept_before (s : Internal) (term : Str) (ngram_len : Nat) : Internal :=
  if ngram_len = 0 then push_context s term
  else if ngram_len = 1 then
    let s1 : Internal := flush_pending s
    if s1.ignore_1grams ≠ 0 then { s1 with ignore_1grams := s1.ignore_1grams - 1 }
    else { s1 with pending_1gram := term }
  else s

/-- The head of `accept_term` (lines 59-69): the discontinuity test and the position
bookkeeping. -/
def accept_position (s : Internal) (pos : Nat) (ngram_len : Nat) : Internal :=
  let s1 : Internal :=
    if pos > uadd s.lastpos 2 then
      { s with context := [], leading_nonword := [], pending_1gram := [], ignore_1grams := 0 }
    else s
  let s2 : Internal :=
    if ngram_len ≤ 1 then { s1 with xpos := uadd s1.xpos (usub pos s1.lastpos) } else s1
  { s2 with lastpos := pos, nwhitespace := 0 }

/-- `SnippetGenerator::Internal::accept_term` (lines 45-134). -/
def accept_term (u : Unicode) (s : Internal) (term : Str) (pos : Nat) (ngram_len : Nat) :
    Internal :=
  let stem := term_stem u s term
  let s1 := accept_position s pos ngram_len
  if stem ∈ s1.matches_ then accept_match s1 term ngram_len
  else if s1.xpos ≤ s1.horizon then accept_after s1 term ngram_len
  else accept_before s1 term ngram_len

/-- The second half of `accept_nonword_char` (lines 196-223), reached with `ch` already
replaced by a space when it is white space. -/
def route_nonword_char (s : Internal) (ch : Nat) (pos : Nat) : Internal :=
  let s1 : Internal := flush_pending s
  let s2 : Internal := { s1 with ignore_1grams := 0 }
  if pos = 0 then { s2 with leading_nonword := s2.leading_nonword ++ [ch] }
  else if s2.xpos ≤ s2.horizon then
    if ch = 32 ∧ s2.xpos = s2.horizon then
      { s2 with leading_nonword := s2.leading_nonword ++ [ch] }
    else { s2 with result := s2.result ++ [ch] }
  else
    match s2.context.getLast? with
    | some last => { s2 with context := s2.context.dropLast ++ [last ++ [ch]] }
    | none => s2

/-- `SnippetGenerator::Internal::accept_nonword_char` (lines 179-224). -/
def accept_nonword_char (u : Unicode) (s : Internal) (ch : Nat) (pos : Nat) : Internal :=
  if s.context = [] ∧ s.leading_nonword ≠ [] then
    { s with leading_nonword := s.leading_nonword ++ [ch] }
  else
    let s1 : Internal := { s with xpos := uadd s.xpos (usub pos s.lastpos) }
    if u.is_whitespace ch then
      let s2 : Internal := { s1 with nwhitespace := uadd s1.nwhitespace 1 }
      if s2.nwhitespace > 1 then s2 else route_nonword_char s2 32 pos
    else route_nonword_char { s1 with nwhitespace := 0 } ch pos

/-! ## The word scanner of `accept_text` -/

/-- `U_isupper` (lines 232-235): an ASCII upper case letter. -/
def U_isupper (ch : Nat) : Bool := decide (ch < 128) && (decide (65 ≤ ch) && decide (ch ≤ 90))

/-- `check_wordchar` (lines 237-240). -/
def check_wordchar (u : Unicode) (ch : Nat) : Nat := if u.is_wordchar ch then ch else 0

/-- `UNICODE_IGNORE` (line 245): `numeric_limits<unsigned>::max()`. -/
def UNICODE_IGNORE : Nat := 4294967295

/-- `check_infix` (lines 247-261); 39 is the apostrophe and 38 the ampersand. -/
def check_infix (ch : Nat) : Nat :=
  if ch = 39 ∨ ch = 38 ∨ ch = 0xb7 ∨ ch = 0x5f4 ∨ ch = 0x2027 then ch
  else if ch = 0x2019 ∨ ch = 0x201b then 39
  else if ch ≥ 0x200b ∧ (ch ≤ 0x200d ∨ ch = 0x2060 ∨ ch = 0xfeff) then UNICODE_IGNORE
  else 0

/-- `check_infix_digit` (lines 263-282); 44, 46 and 59 are comma, full stop and semicolon. -/
def check_infix_digit (ch : Nat) : Nat :=
  if ch = 44 ∨ ch = 46 ∨ ch = 59 ∨ ch = 0x037e ∨ ch = 0x0589 ∨ ch = 0x060D ∨ ch = 0x07F8
      ∨ ch = 0x2044 ∨ ch = 0xFE10 ∨ ch = 0xFE13 ∨ ch = 0xFE14 then ch
  else if ch ≥ 0x200b ∧ (ch ≤ 0x200d ∨ ch = 0x2060 ∨ ch = 0xfeff) then UNICODE_IGNORE
  else 0

/-- `check_suffix` (lines 289-293); 43 is the plus sign and 35 the hash sign. -/
def check_suffix (ch : Nat) : Nat := if ch = 43 ∨ ch = 35 then ch else 0

/-- `MAX_PROB_TERM_LENGTH` (line 228). -/
def MAX_PROB_TERM_LENGTH : Nat := 64

/-- What `accept_text` hands to the state machine: `term t n` stands for the call
`accept_term(t, ++termpos, n)` and `nonword ch` for `accept_nonword_char(ch, termpos)`. -/
inductive Event where
  | term (t : Str) (ngram_len : Nat)
  | nonword (ch : Nat)
  deriving DecidableEq, Repr

/-- The loop "advance to the start of the next term" (lines 303-309): every code point that
is not a word character is handed to `accept_nonword_char`; returns those calls and the
iterator, which is at its end or at a word character. -/
def skip_nonword (u : Unicode) : List Nat → List Event × List Nat
  | [] => ([], [])
  | c :: rest =>
    if check_wordchar u c ≠ 0 then ([], c :: rest)
    else
      let r := skip_nonword u rest
      (Event.nonword c :: r.1, r.2)

/-- The acronym loop (lines 317-319) started on the upper case letter `c` followed by the
given code points: the lowered letters collected in `term` and the iterator `p` when the
loop stops. -/
def acronym_scan (u : Unicode) : Nat → List Nat → Str × List Nat
  | c, [] => ([u.tolower c], [])
  | c, d :: rest =>
    if d = 46 then
      match rest with
      | [] => ([u.tolower c], [])
      | e :: rest2 =>
        if U_isupper e then
          let r := acronym_scan u e rest2
          (u.tolower c :: r.1, r.2)
        else ([u.tolower c], e :: rest2)
    else ([u.tolower c], d :: rest)

/-- The word loop (lines 333-380) with `cjk_ngram` false, entered with the word character
`ch` at `*itor`, the term collected so far, and the code points after `ch`.  Returns the
term, the iterator, and `true` when the loop was left by `goto endofterm` (end of input),
`false` when it was left by `break`. -/
def word_body (u : Unicode) (term : Str) (ch : Nat) : List Nat → Str × List Nat × Bool
  | [] => (term ++ [ch], [], true)
  | c :: rest =>
    if check_wordchar u c ≠ 0 then word_body u (term ++ [ch]) (check_wordchar u c) rest
    else
      match rest with
      | [] => (term ++ [ch], [c], false)
      | n :: rest2 =>
        if check_wordchar u n = 0 then (term ++ [ch], c :: n :: rest2, false)
        else
          let infix_ch :=
            if u.is_digit ch && u.is_digit n then check_infix_digit c else check_infix c
          if infix_ch = 0 then (term ++ [ch], c :: n :: rest2, false)
          else if infix_ch ≠ UNICODE_IGNORE then
            word_body u (term ++ [ch] ++ [infix_ch]) (check_wordchar u n) rest2
          else word_body u (term ++ [ch]) (check_wordchar u n) rest2

/-- The suffix loop and the test after it (lines 385-395): `base` is the term before any
suffix (`len` in the source), `count` the suffix characters taken so far. -/
def suffix_scan (u : Unicode) (base : Str) : Nat → Str → List Nat → Str × List Nat
  | _, term, [] => (term, [])
  | count, term, c :: rest =>
    if check_suffix c ≠ 0 then
      if count + 1 > 3 then (base, c :: rest)
      else suffix_scan u base (count + 1) (term ++ [check_suffix c]) rest
    else if u.is_wordchar c then (base, c :: rest)
    else (term, c :: rest)

/-- One term of `accept_text` (lines 311-396), the iterator being at the word character `c`:
the acronym rule, else the word loop and the suffix rule.  Returns the term at `endofterm`
and the iterator there. -/
def scan_term (u : Unicode) (c : Nat) (rest : List Nat) : Str × List Nat :=
  let acr := acronym_scan u c rest
  let acr_ok : Bool :=
    match acr.2 with
    | [] => true
    | d :: _ => !u.is_wordchar d
  if U_isupper c ∧ str_size acr.1 > 1 ∧ acr_ok = true then acr
  else
    let w := word_body u [] (check_wordchar u c) rest
    if w.2.2 then (w.1, w.2.1)
    else suffix_scan u w.1 0 w.1 w.2.1

/-- The outer loop of `accept_text` (lines 300-401) with `cjk_ngram` false, as the calls it
makes in order.  Every round consumes at least one code point, so `fuel` above the length
of the input is never used up (`tokenize_loop_fuel`). -/
def tokenize_loop (u : Unicode) : Nat → List Nat → List Event
  | 0, _ => []
  | fuel + 1, itor =>
    let sk := skip_nonword u itor
    match sk.2 with
    | [] => sk.1
    | c :: rest =>
      let t := scan_term u c rest
      if str_size t.1 > MAX_PROB_TERM_LENGTH then sk.1 ++ tokenize_loop u fuel t.2
      else sk.1 ++ Event.term t.1 0 :: tokenize_loop u fuel t.2

/-- The calls `accept_text` makes on a text, in order (CJK n-grams disabled). -/
def tokenize (u : Unicode) (itor : List Nat) : List Event :=
  tokenize_loop u (itor.length + 1) itor

/-- One call of the scanner into the state machine. -/
def deliver (u : Unicode) (s : Internal) : Event → Internal
  | Event.term t n =>
    let s1 : Internal := { s with termpos := uadd s.termpos 1 }
    accept_term u s1 t s1.termpos n
  | Event.nonword ch => accept_nonword_char u s ch s.termpos

/-- `SnippetGenerator::Internal::accept_text` (lines 295-402) with CJK n-grams disabled
(`CJK::is_cjk_enabled()` false): the scanner reads only the iterator and `termpos`, so the
calls it makes are listed by `tokenize` and delivered in order. -/
def accept_text (u : Unicode) (s : Internal) (itor : List Nat) : Internal :=
  (tokenize u itor).foldl (deliver u) s

/-! ## The facade and the rest of `Internal` -/

/-- The first loop of `add_match` (lines 412-417): skip the code points that are not word
characters; returns the word character found and the iterator after it. -/
def add_match_skip (u : Unicode) : List Nat → Option (Nat × List Nat)
  | [] => none
  | c :: rest => if check_wordchar u c ≠ 0 then some (check_wordchar u c, rest)
    else add_match_skip u rest

/-- The second loop of `add_match` (lines 432-438): collect word characters into the term. -/
def add_match_word (u : Unicode) (term : Str) : List Nat → Str × List Nat
  | [] => (term, [])
  | c :: rest =>
    if check_wordchar u c = 0 then (term, c :: rest)
    else add_match_word u (term ++ [check_wordchar u c]) rest

/-- The outer loop of `add_match` (lines 409-444); every round consumes a code point. -/
def add_match_loop (u : Unicode) : Nat → Internal → List Nat → Internal
  | 0, s, _ => s
  | fuel + 1, s, itor =>
    match add_match_skip u itor with
    | none => s
    | some (ch, rest) =>
      let w := add_match_word u [ch] rest
      let stem := tolower_str u w.1
      let stem := match s.stemmer with
        | some f => f stem
        | none => stem
      add_match_loop u fuel { s with matches_ := set_insert stem s.matches_ } w.2

/-- `SnippetGenerator::Internal::add_match` (lines 404-445). -/
def add_match (u : Unicode) (s : Internal) (str : List Nat) : Internal :=
  add_match_loop u (str.length + 1) s str

/-- `SnippetGenerator::Internal::reset` (lines 447-465).  The call `normalizer->reset()`
acts on the normalizer object only, which is a function here. -/
def reset (s : Internal) : Internal :=
  { s with result := [], horizon := 0, lastpos := 0, xpos := 0, nwhitespace := 0,
           context := [], matches_ := [], termpos := 0, leading_nonword := [],
           pending_1gram := [], ignore_1grams := 0, best_matchcount := 0, snippets := [],
           match_cover := [] }

/-- `SnippetGenerator::get_snippets` (snippetgenerator.cc lines 135-144): the string
returned and the engine afterwards. -/
def get_snippets (s : Internal) : Str × Internal :=
  let s1 := push_result s
  (s1.snippets.flatten, s1)

/-- `SnippetGenerator::increase_termpos` (snippetgenerator.cc lines 69-73). -/
def increase_termpos (s : Internal) (delta : Nat) : Internal :=
  { s with termpos := uadd s.termpos delta }

/-- `SnippetGenerator::set_termpos` (snippetgenerator.cc lines 81-85). -/
def set_termpos (s : Internal) (termpos : Nat) : Internal := { s with termpos := termpos }

/-- `SnippetGenerator::set_context_length` (snippetgenerator.cc lines 129-133). -/
def set_context_length (s : Internal) (length : Nat) : Internal :=
  { s with context_length := length }

/-- `SnippetGenerator::set_stemmer` (snippetgenerator.cc lines 45-49). -/
def set_stemmer (s : Internal) (stemmer : Option (Str → Str)) : Internal :=
  { s with stemmer := stemmer }

/-- `SnippetGenerator::set_normalizer` (snippetgenerator.cc lines 51-55). -/
def set_normalizer (s : Internal) (n : Option (Str → Str)) : Internal :=
  { s with normalizer := n }

/-- `SnippetGenerator::set_pre_match` (snippetgenerator.cc lines 93-97). -/
def set_pre_match (s : Internal) (text : Str) : Internal := { s with pre_match := text }

/-- `SnippetGenerator::set_post_match` (snippetgenerator.cc lines 105-109). -/
def set_post_match (s : Internal) (text : Str) : Internal := { s with post_match := text }

/-- `SnippetGenerator::set_inter_snippet` (snippetgenerator.cc lines 117-121). -/
def set_inter_snippet (s : Internal) (text : Str) : Internal := { s with inter_snippet := text }

/-- The engine with the match set `m`: what a series of `add_match` calls leaves in
`matches`. -/
def with_matches (s : Internal) (m : List Str) : Internal := { s with matches_ := m }

/-- The code points of a string literal. -/
def str (t : String) : Str := t.toList.map Char.toNat

/-- Modelled from the spec: the members `normalizer`, `match_cover`, `best_matchcount` and
`snippets`, which the header under src does not declare, start unset, empty and zero.  The
rest is the constructor `Internal()` (snippetgenerator_internal.h lines 58-61): it
initialises the markup strings, `context_length(5)`, `nwhitespace(0)`, `horizon(0)`,
`lastpos(0)` and `termpos(0)`; the strings and containers start empty and the stemmer
unset.  It initialises neither `xpos` (declared at line 47) nor `ignore_1grams` (line 43):
the values these two hold after construction are indeterminate, and are the arguments
here. -/
def Internal.constructed (xpos ignore_1grams : Nat) : Internal :=
  { stemmer := none, normalizer := none,
    pre_match := str "<b>", post_match := str "</b>", inter_snippet := str "...",
    context_length := 5, matches_ := [], nwhitespace := 0, leading_nonword := [],
    pending_1gram := [], ignore_1grams := ignore_1grams, horizon := 0, lastpos := 0,
    xpos := xpos, context := [], result := [], termpos := 0, match_cover := [],
    best_matchcount := 0, snippets := [] }

/-- The zero start state: the constructed engine in which the two members the constructor
leaves uninitialised, `xpos` and `ignore_1grams`, hold 0 (`Internal.constructed 0 0`).  It is
the running state that `reset()` produces, the spec's "running state zero" (section 8),
with the default configuration; the scenarios start from it. -/
def Internal.fresh : Internal :=
  { stemmer := none, normalizer := none,
    pre_match := str "<b>", post_match := str "</b>", inter_snippet := str "...",
    context_length := 5, matches_ := [], nwhitespace := 0, leading_nonword := [],
    pending_1gram := [], ignore_1grams := 0, horizon := 0, lastpos := 0, xpos := 0,
    context := [], result := [], termpos := 0, match_cover := [], best_matchcount := 0,
    snippets := [] }

/-- Modelled from the spec: the Unicode tables (xapian/unicode.h is not under src), on the
ASCII range: word characters are the letters, the digits and the connector `_`; white
space is the space and the control characters; `tolower` lowers `A`..`Z`; the decimal
digits are `0`..`9`.  Code points from 128 on are left unclassified. -/
def ascii : Unicode :=
  { is_wordchar := fun ch =>
      (decide (48 ≤ ch) && decide (ch ≤ 57)) || (decide (65 ≤ ch) && decide (ch ≤ 90))
        || (decide (97 ≤ ch) && decide (ch ≤ 122)) || decide (ch = 95),
    is_whitespace := fun ch => decide (ch ≤ 32) || decide (ch = 127),
    tolower := fun ch => if 65 ≤ ch ∧ ch ≤ 90 then ch + 32 else ch,
    is_digit := fun ch => decide (48 ≤ ch) && decide (ch ≤ 57) }

/-- The stemmer applied when one is set (`if (stemmer.internal.get()) stem = stemmer(stem)`). -/
def apply_stemmer (s : Internal) (stem : Str) : Str :=
  match s.stemmer with
  | some f => f stem
  | none => stem

/-- The normalizer applied when one is set. -/
def apply_normalizer (s : Internal) (term : Str) : Str :=
  match s.normalizer with
  | some n => n term
  | none => term

/-- A run of calls of `push_result`, each made with the snippet under construction `p.1`
and its match cover `p.2`. -/
def push_all (s : Internal) (ps : List (Str × List Str)) : Internal :=
  ps.foldl (fun a p => push_result { a with result := p.1, match_cover := p.2 }) s

/-- The pushed results that are not empty and have a match cover that is not empty. -/
def counted (ps : List (Str × List Str)) : List (Str × List Str) :=
  ps.filter (fun p => decide (p.1 ≠ []) && decide (p.2 ≠ []))

/-- The largest size of a match cover among the counted results, 0 when there is none. -/
def best_of (ps : List (Str × List Str)) : Nat :=
  ((counted ps).map (fun p => p.2.length)).foldr max 0

/-- The counted results whose match cover has the largest size, in push order. -/
def best_results (ps : List (Str × List Str)) : List Str :=
  ((counted ps).filter (fun p => decide (p.2.length = best_of ps))).map (fun p => p.1)

/-- A normalizer for the examples: it spells `z` as `s`. -/
def z_to_s : Str → Str := List.map (fun c => if c = 122 then 115 else c)

/-- A call of the facade that changes the engine or returns a string. -/
inductive Op where
  | add_match (term : List Nat)
  | accept_text (text : List Nat)
  | increase_termpos (delta : Nat)
  | set_termpos (termpos : Nat)
  | get_snippets
  | reset

/-- One facade call: the engine afterwards and the string returned, if the call returns
one. -/
def apply_op (u : Unicode) (s : Internal) : Op → Internal × Option Str
  | Op.add_match t => (add_match u s t, none)
  | Op.accept_text t => (accept_text u s t, none)
  | Op.increase_termpos d => (increase_termpos s d, none)
  | Op.set_termpos p => (set_termpos s p, none)
  | Op.get_snippets => ((get_snippets s).2, some (get_snippets s).1)
  | Op.reset => (reset s, none)

/-- A sequence of facade calls: the engine at the end and the strings returned, in order. -/
def run (u : Unicode) : Internal → List Op → Internal × List Str
  | s, [] => (s, [])
  | s, op :: ops =>
    let r := apply_op u s op
    let rs := run u r.1 ops
    match r.2 with
    | some out => (rs.1, out :: rs.2)
    | none => rs

/-- The zero start state `Internal.fresh` given the configuration of `s` through the
setters. -/
def fresh_like (s : Internal) : Internal :=
  set_context_length
    (set_inter_snippet
      (set_post_match
        (set_pre_match (set_normalizer (set_stemmer Internal.fresh s.stemmer) s.normalizer)
          s.pre_match)
        s.post_match)
      s.inter_snippet)
    s.context_length

/-- The configuration and the match set agree in two engines. -/
def Frame (a b : Internal) : Prop :=
  a.stemmer = b.stemmer ∧ a.normalizer = b.normalizer ∧ a.pre_match = b.pre_match ∧
  a.post_match = b.post_match ∧ a.inter_snippet = b.inter_snippet ∧
  a.context_length = b.context_length ∧ a.matches_ = b.matches_

/-- The selector's fields agree in two engines. -/
def Kept (a b : Internal) : Prop :=
  a.match_cover = b.match_cover ∧ a.snippets = b.snippets ∧
  a.best_matchcount = b.best_matchcount

/-- Nothing was ever highlighted: no match set, no match cover, no completed snippet. -/
def Blank (s : Internal) : Prop := s.matches_ = [] ∧ s.match_cover = [] ∧ s.snippets = []

/-! ## Tokens, words of a query string and example inputs -/

/-- The call is `add_match`. -/
def Op.is_add_match : Op → Bool
  | Op.add_match _ => true
  | _ => false

/-- The event is a call of `accept_term`. -/
def Event.is_term : Event → Bool
  | Event.term _ _ => true
  | Event.nonword _ => false

/-- The terms that reach the label `endofterm` of `accept_text` (line 398), in order,
whatever their size: the tokens of the text. -/
def scan_tokens_loop (u : Unicode) : Nat → List Nat → List Str
  | 0, _ => []
  | fuel + 1, itor =>
    match (skip_nonword u itor).2 with
    | [] => []
    | c :: rest => (scan_term u c rest).1 :: scan_tokens_loop u fuel (scan_term u c rest).2

/-- The tokens of a text. -/
def scan_tokens (u : Unicode) (itor : List Nat) : List Str :=
  scan_tokens_loop u (itor.length + 1) itor

/-- The words of a query string in the spec's sense: the string split at the code points
that are not word characters, the empty pieces dropped. -/
def wordchar_runs (u : Unicode) (s : List Nat) : List Str :=
  (s.splitOnP (fun c => !u.is_wordchar c)).filter (fun w => decide (w ≠ []))

/-- The spec's words: `w` is a maximal run of consecutive word characters of `q`: it is
not empty, holds word characters only, occurs in `q` between `pre` and `post`, and is
extended on neither side: `pre` is empty or ends with a code point that is not a word
character, and `post` is empty or starts with one. -/
def MaximalRun (u : Unicode) (q : List Nat) (w : Str) : Prop :=
  w ≠ [] ∧ (∀ c ∈ w, u.is_wordchar c = true) ∧
  ∃ pre post : List Nat, q = pre ++ w ++ post ∧
    (pre = [] ∨ ∃ l sep, pre = l ++ [sep] ∧ u.is_wordchar sep = false) ∧
    (post = [] ∨ ∃ sep r, post = sep :: r ∧ u.is_wordchar sep = false)

/-- The match set `m` after the words `ws` were inserted in order, each lowered and
stemmed. -/
def insert_words (u : Unicode) (s : Internal) (ws : List Str) (m : List Str) : List Str :=
  ws.foldl (fun acc w => set_insert (apply_stemmer s (tolower_str u w)) acc) m

/-- The calls `accept_term(t, ++termpos, n)` for the n-gram stream of a CJK run of five
characters: the 1-gram of each character and, between two of them, the 2-gram that starts
there, each handed over by `accept_term(cjk_token, ++termpos, tk.get_length())` (line 343). -/
def ngram_stream_5 (c1 c2 c3 c4 c5 : Nat) : List Event :=
  [Event.term [c1] 1, Event.term [c1, c2] 2, Event.term [c2] 1, Event.term [c2, c3] 2,
   Event.term [c3] 1, Event.term [c3, c4] 2, Event.term [c4] 1, Event.term [c4, c5] 2,
   Event.term [c5] 1]

/-- An example text: a token of 65 bytes between two short ones. -/
def long_token_text : List Nat := str "x " ++ List.replicate 65 97 ++ str " y"

/-- An example engine: `context_length` 0, the match `fox`, the text `a fox b` read. -/
def narrow_engine : Internal :=
  accept_text ascii (add_match ascii (set_context_length Internal.fresh 0) (str "fox"))
    (str "a fox b")

/-- An example engine: the text `a b` read, then `increase_termpos(3)`. -/
def moved_engine : Internal :=
  increase_termpos (accept_text ascii Internal.fresh (str "a b")) 3

/-! ## N-gram streams and runs of whole words -/

/-- Modelled from the spec: the n-gram stream of a CJK run `c₁ … cₙ` (the code of the
n-gram tokenizer is not under src): `c₁, c₁c₂, c₂, c₂c₃, …, cₙ`, the 1-gram at a base
immediately before the 2-gram at that base, each handed over by
`accept_term(cjk_token, ++termpos, tk.get_length())` (line 343). -/
def ngram_stream : List Nat → List Event
  | [] => []
  | [c] => [Event.term [c] 1]
  | c :: d :: rest => Event.term [c] 1 :: Event.term [c, d] 2 :: ngram_stream (d :: rest)

/-- The context queue holds entries that satisfy `E`, `leading_nonword` holds code points
that satisfy `N`, and a pending 1-gram satisfies `E`. -/
def CtxOK (E : Str → Prop) (N : Nat → Prop) (s : Internal) : Prop :=
  (∀ e ∈ s.context, E e) ∧ (∀ c ∈ s.leading_nonword, N c) ∧
  (s.pending_1gram ≠ [] → E s.pending_1gram)

/-- The context queue is no longer than `context_length`. -/
def Bounded (s : Internal) : Prop := s.context.length ≤ s.context_length

/-- An event whose term satisfies `E`, or whose code point satisfies `N`. -/
def EventOK (E : Str → Prop) (N : Nat → Prop) : Event → Prop
  | Event.term t _ => E t
  | Event.nonword ch => N ch

/-- The fields the shape of the snippets depends on agree in two engines. -/
def RunEq (a b : Internal) : Prop :=
  a.result = b.result ∧ a.snippets = b.snippets ∧ a.horizon = b.horizon ∧
  a.match_cover = b.match_cover ∧ a.xpos = b.xpos ∧ a.lastpos = b.lastpos ∧
  a.termpos = b.termpos

end Xapian

namespace Xapian

/-! ## The scanner consumes its input -/

theorem skip_nonword_length (u : Unicode) (l : List Nat) :
    (skip_nonword u l).1.length + (skip_nonword u l).2.length = l.length := by
  induction l with
  | nil => rfl
  | cons c rest ih =>
    unfold skip_nonword
    split_ifs
    · simp
    · simp only [List.length_cons]; omega

theorem acronym_scan_length (u : Unicode) (n : Nat) :
    ∀ (c : Nat) (rest : List Nat), rest.length ≤ n →
      (acronym_scan u c rest).2.length ≤ rest.length := by
  induction n with
  | zero =>
    intro c rest h
    cases rest with
    | nil => simp [acronym_scan]
    | cons d rest => simp at h
  | succ n ih =>
    intro c rest h
    cases rest with
    | nil => simp [acronym_scan]
    | cons d rest =>
      cases rest with
      | nil => unfold acronym_scan; split_ifs <;> simp
      | cons e rest2 =>
        unfold acronym_scan
        simp only [List.length_cons] at h ⊢
        have := ih e rest2 (by omega)
        split_ifs <;> simp only [List.length_cons] <;> omega

theorem word_body_length (u : Unicode) (n : Nat) :
    ∀ (term : Str) (ch : Nat) (rest : List Nat), rest.length ≤ n →
      (word_body u term ch rest).2.1.length ≤ rest.length := by
  induction n with
  | zero =>
    intro term ch rest h
    cases rest with
    | nil => simp [word_body]
    | cons d rest => simp at h
  | succ n ih =>
    intro term ch rest h
    cases rest with
    | nil => simp [word_body]
    | cons c rest =>
      cases rest with
      | nil =>
        unfold word_body
        have := ih (term ++ [ch]) (check_wordchar u c) [] (by simp)
        split_ifs
        · simp only [List.length_cons]; omega
        · simp
      | cons e rest2 =>
        unfold word_body
        simp only [List.length_cons] at h ⊢
        have h1 := ih (term ++ [ch]) (check_wordchar u c) (e :: rest2) (by simp; omega)
        simp only [List.length_cons] at h1
        split_ifs <;>
          first
          | omega
          | (simp only [List.length_cons]; omega)
          | exact le_trans (ih _ _ rest2 (by omega)) (by omega)

theorem suffix_scan_length (u : Unicode) (base : Str) (l : List Nat) :
    ∀ (count : Nat) (term : Str), (suffix_scan u base count term l).2.length ≤ l.length := by
  induction l with
  | nil => intro count term; simp [suffix_scan]
  | cons c rest ih =>
    intro count term
    unfold suffix_scan
    have := ih (count + 1) (term ++ [check_suffix c])
    split_ifs <;> simp only [List.length_cons] <;> omega

theorem scan_term_length (u : Unicode) (c : Nat) (rest : List Nat) :
    (scan_term u c rest).2.length ≤ rest.length := by
  have h1 := acronym_scan_length u rest.length c rest (le_refl _)
  have h2 := word_body_length u rest.length [] (check_wordchar u c) rest (le_refl _)
  have h3 := suffix_scan_length u (word_body u [] (check_wordchar u c) rest).1
    (word_body u [] (check_wordchar u c) rest).2.1 0 (word_body u [] (check_wordchar u c) rest).1
  unfold scan_term
  simp only []
  split_ifs
  · exact h1
  · exact h2
  · omega

theorem tokenize_loop_fuel_eq (u : Unicode) (f1 : Nat) :
    ∀ (f2 : Nat) (itor : List Nat), itor.length < f1 → itor.length < f2 →
      tokenize_loop u f1 itor = tokenize_loop u f2 itor := by
  induction f1 with
  | zero => intro f2 itor h; omega
  | succ f1 ih =>
    intro f2 itor h1 h2
    cases f2 with
    | zero => omega
    | succ f2 =>
      unfold tokenize_loop
      simp only []
      have hs := skip_nonword_length u itor
      split
      · rfl
      · rename_i c rest hsk
        have hl := scan_term_length u c rest
        rw [hsk] at hs
        simp only [List.length_cons] at hs
        rw [ih f2 (scan_term u c rest).2 (by omega) (by omega)]

/-- The fuel of `tokenize_loop` is never used up: any fuel above the length of the input
gives the calls of `tokenize`. -/
theorem tokenize_loop_fuel (u : Unicode) (fuel : Nat) (itor : List Nat)
    (h : itor.length < fuel) : tokenize_loop u fuel itor = tokenize u itor :=
  tokenize_loop_fuel_eq u fuel (itor.length + 1) itor h (Nat.lt_succ_self _)

theorem Frame.trans {a b c : Internal} (h1 : Frame a b) (h2 : Frame b c) : Frame a c := by
  obtain ⟨a1, a2, a3, a4, a5, a6, a7⟩ := h1
  obtain ⟨b1, b2, b3, b4, b5, b6, b7⟩ := h2
  exact ⟨a1.trans b1, a2.trans b2, a3.trans b3, a4.trans b4, a5.trans b5, a6.trans b6,
    a7.trans b7⟩

theorem push_context_frame (s : Internal) (t : Str) : Frame (push_context s t) s :=
  ⟨rfl, rfl, rfl, rfl, rfl, rfl, rfl⟩

theorem flush_pending_frame (s : Internal) : Frame (flush_pending s) s := by
  unfold flush_pending
  split_ifs <;> exact ⟨rfl, rfl, rfl, rfl, rfl, rfl, rfl⟩

theorem push_result_frame (s : Internal) : Frame (push_result s) s := by
  unfold push_result
  simp only []
  split_ifs <;> exact ⟨rfl, rfl, rfl, rfl, rfl, rfl, rfl⟩

theorem accept_position_frame (s : Internal) (pos n : Nat) :
    Frame (accept_position s pos n) s := by
  unfold accept_position
  simp only []
  split_ifs <;> exact ⟨rfl, rfl, rfl, rfl, rfl, rfl, rfl⟩

theorem open_snippet_frame (s : Internal) : Frame (open_snippet s) s := by
  have h := push_result_frame s
  unfold open_snippet
  split_ifs
  · exact h
  · exact ⟨rfl, rfl, rfl, rfl, rfl, rfl, rfl⟩

theorem accept_match_frame (s : Internal) (t : Str) (n : Nat) :
    Frame (accept_match s t n) s := by
  have h1 := open_snippet_frame s
  have h2 := (flush_pending_frame (open_snippet s)).trans h1
  have h3 : ∀ q : Internal, Frame (emit_match (flush_context q) t n) q :=
    fun q => ⟨rfl, rfl, rfl, rfl, rfl, rfl, rfl⟩
  unfold accept_match
  simp only []
  split_ifs
  · exact (h3 _).trans h2
  · exact (h3 _).trans h1

theorem accept_after_frame (s : Internal) (t : Str) (n : Nat) :
    Frame (accept_after s t n) s := by
  unfold accept_after
  split_ifs <;> exact ⟨rfl, rfl, rfl, rfl, rfl, rfl, rfl⟩

theorem accept_before_frame (s : Internal) (t : Str) (n : Nat) :
    Frame (accept_before s t n) s := by
  have hf := flush_pending_frame s
  unfold accept_before
  simp only []
  generalize flush_pending s = q at hf
  split_ifs <;> first | exact ⟨rfl, rfl, rfl, rfl, rfl, rfl, rfl⟩ | exact hf

theorem accept_term_frame (u : Unicode) (s : Internal) (t : Str) (pos n : Nat) :
    Frame (accept_term u s t pos n) s := by
  unfold accept_term
  simp only []
  split_ifs
  · exact (accept_match_frame _ t n).trans (accept_position_frame s pos n)
  · exact (accept_after_frame _ t n).trans (accept_position_frame s pos n)
  · exact (accept_before_frame _ t n).trans (accept_position_frame s pos n)

theorem route_nonword_char_frame (s : Internal) (ch pos : Nat) :
    Frame (route_nonword_char s ch pos) s := by
  have hf := flush_pending_frame s
  unfold route_nonword_char
  simp only []
  generalize flush_pending s = q at hf
  split_ifs <;> first | exact hf | (split <;> exact hf)

theorem accept_nonword_char_frame (u : Unicode) (s : Internal) (ch pos : Nat) :
    Frame (accept_nonword_char u s ch pos) s := by
  unfold accept_nonword_char
  simp only []
  split_ifs
  · exact ⟨rfl, rfl, rfl, rfl, rfl, rfl, rfl⟩
  · exact ⟨rfl, rfl, rfl, rfl, rfl, rfl, rfl⟩
  · exact (route_nonword_char_frame _ 32 pos).trans ⟨rfl, rfl, rfl, rfl, rfl, rfl, rfl⟩
  · exact (route_nonword_char_frame _ ch pos).trans ⟨rfl, rfl, rfl, rfl, rfl, rfl, rfl⟩

theorem Kept.comp {a b c : Internal} (h1 : Kept a b) (h2 : Kept b c) : Kept a c :=
  ⟨h1.1.trans h2.1, h1.2.1.trans h2.2.1, h1.2.2.trans h2.2.2⟩

theorem flush_pending_kept (s : Internal) : Kept (flush_pending s) s := by
  unfold flush_pending
  split_ifs <;> exact ⟨rfl, rfl, rfl⟩

theorem accept_position_kept (s : Internal) (pos n : Nat) :
    Kept (accept_position s pos n) s := by
  unfold accept_position
  simp only []
  split_ifs <;> exact ⟨rfl, rfl, rfl⟩

theorem accept_after_kept (s : Internal) (t : Str) (n : Nat) :
    Kept (accept_after s t n) s := by
  unfold accept_after
  split_ifs <;> exact ⟨rfl, rfl, rfl⟩

theorem accept_before_kept (s : Internal) (t : Str) (n : Nat) :
    Kept (accept_before s t n) s := by
  have hf := flush_pending_kept s
  unfold accept_before
  simp only []
  generalize flush_pending s = q at hf
  split_ifs <;> first | exact ⟨rfl, rfl, rfl⟩ | exact hf

theorem route_nonword_char_kept (s : Internal) (ch pos : Nat) :
    Kept (route_nonword_char s ch pos) s := by
  have hf := flush_pending_kept s
  unfold route_nonword_char
  simp only []
  generalize flush_pending s = q at hf
  split_ifs <;> first | exact hf | (split <;> exact hf)

theorem accept_nonword_char_kept (u : Unicode) (s : Internal) (ch pos : Nat) :
    Kept (accept_nonword_char u s ch pos) s := by
  unfold accept_nonword_char
  simp only []
  split_ifs
  · exact ⟨rfl, rfl, rfl⟩
  · exact ⟨rfl, rfl, rfl⟩
  · exact (route_nonword_char_kept _ 32 pos).comp ⟨rfl, rfl, rfl⟩
  · exact (route_nonword_char_kept _ ch pos).comp ⟨rfl, rfl, rfl⟩

theorem accept_term_blank (u : Unicode) (s : Internal) (t : Str) (pos n : Nat)
    (h : Blank s) : Blank (accept_term u s t pos n) := by
  obtain ⟨h1, h2, h3⟩ := h
  have hf := accept_term_frame u s t pos n
  have hp : (accept_position s pos n).matches_ = [] := by
    rw [(accept_position_frame s pos n).2.2.2.2.2.2]; exact h1
  have hk := accept_position_kept s pos n
  refine ⟨hf.2.2.2.2.2.2.trans h1, ?_⟩
  unfold accept_term
  simp only [hp, List.not_mem_nil, if_false]
  split_ifs
  · have hk2 := (accept_after_kept (accept_position s pos n) t n).comp hk
    exact ⟨hk2.1.trans h2, hk2.2.1.trans h3⟩
  · have hk2 := (accept_before_kept (accept_position s pos n) t n).comp hk
    exact ⟨hk2.1.trans h2, hk2.2.1.trans h3⟩

theorem accept_nonword_char_blank (u : Unicode) (s : Internal) (ch pos : Nat)
    (h : Blank s) : Blank (accept_nonword_char u s ch pos) := by
  obtain ⟨h1, h2, h3⟩ := h
  have hf := accept_nonword_char_frame u s ch pos
  have hk := accept_nonword_char_kept u s ch pos
  exact ⟨hf.2.2.2.2.2.2.trans h1, hk.1.trans h2, hk.2.1.trans h3⟩

theorem deliver_blank (u : Unicode) (s : Internal) (e : Event) (h : Blank s) :
    Blank (deliver u s e) := by
  cases e with
  | term t n => exact accept_term_blank u _ t _ n h
  | nonword ch => exact accept_nonword_char_blank u s ch _ h

theorem accept_text_blank (u : Unicode) (s : Internal) (text : List Nat) (h : Blank s) :
    Blank (accept_text u s text) := by
  unfold accept_text
  generalize tokenize u text = evs
  induction evs generalizing s with
  | nil => exact h
  | cons e evs ih => exact ih _ (deliver_blank u s e h)

theorem get_snippets_blank (s : Internal) (h : Blank s) : (get_snippets s).1 = [] := by
  obtain ⟨_, h2, h3⟩ := h
  unfold get_snippets push_result
  simp [h2, h3]

/-! ## The selector keeps the best results -/

theorem foldr_max_append (l : List Nat) (x : Nat) :
    (l ++ [x]).foldr max 0 = max (l.foldr max 0) x := by
  induction l with
  | nil => simp
  | cons a l ih => simp only [List.cons_append, List.foldr_cons, ih, max_assoc]

theorem le_foldr_max (l : List Nat) (x : Nat) (h : x ∈ l) : x ≤ l.foldr max 0 := by
  induction l with
  | nil => cases h
  | cons a l ih =>
    simp only [List.foldr_cons]
    rcases List.mem_cons.mp h with h | h
    · subst h; exact le_max_left _ _
    · exact le_trans (ih h) (le_max_right _ _)

theorem counted_append (ps : List (Str × List Str)) (p : Str × List Str) :
    counted (ps ++ [p]) = counted ps ++ counted [p] := by
  unfold counted
  rw [List.filter_append]

theorem counted_le_best (ps : List (Str × List Str)) (q : Str × List Str)
    (h : q ∈ counted ps) : q.2.length ≤ best_of ps :=
  le_foldr_max _ _ (List.mem_map.mpr ⟨q, h, rfl⟩)

theorem best_of_skip (ps : List (Str × List Str)) (p : Str × List Str)
    (h : p.1 = [] ∨ p.2.length = 0) : best_of (ps ++ [p]) = best_of ps ∧
      best_results (ps ++ [p]) = best_results ps := by
  have hc : counted [p] = [] := by
    unfold counted
    rcases h with h | h
    · simp [h]
    · simp [List.length_eq_zero.mp h]
  have hb : best_of (ps ++ [p]) = best_of ps := by
    unfold best_of
    rw [counted_append, hc, List.append_nil]
  refine ⟨hb, ?_⟩
  unfold best_results
  rw [hb, counted_append, hc, List.append_nil]

theorem best_of_push (ps : List (Str × List Str)) (p : Str × List Str)
    (h1 : p.1 ≠ []) (h2 : p.2.length ≠ 0) :
    counted [p] = [p] ∧ best_of (ps ++ [p]) = max (best_of ps) p.2.length := by
  have hc : counted [p] = [p] := by
    unfold counted
    have : p.2 ≠ [] := fun h => h2 (by rw [h]; rfl)
    simp [h1, this]
  refine ⟨hc, ?_⟩
  unfold best_of
  rw [counted_append, hc, List.map_append, List.map_singleton, foldr_max_append]

theorem push_all_append (s : Internal) (ps : List (Str × List Str)) (p : Str × List Str) :
    push_all s (ps ++ [p])
      = push_result { push_all s ps with result := p.1, match_cover := p.2 } := by
  unfold push_all
  rw [List.foldl_append]
  rfl

theorem push_all_best (s : Internal) (ps : List (Str × List Str))
    (hb : s.best_matchcount = 0) (hs : s.snippets = []) :
    (push_all s ps).best_matchcount = best_of ps ∧
    (push_all s ps).snippets = best_results ps := by
  induction ps using List.reverseRecOn with
  | nil => exact ⟨hb, hs⟩
  | append_singleton ps p ih =>
    obtain ⟨ih1, ih2⟩ := ih
    rw [push_all_append]
    by_cases hskip : p.1 = [] ∨ p.2.length = 0
    · obtain ⟨e1, e2⟩ := best_of_skip ps p hskip
      rw [e1, e2]
      unfold push_result
      simp only [hskip, if_true]
      exact ⟨ih1, ih2⟩
    · have h1 : p.1 ≠ [] := fun h => hskip (Or.inl h)
      have h2 : p.2.length ≠ 0 := fun h => hskip (Or.inr h)
      obtain ⟨hc, e1⟩ := best_of_push ps p h1 h2
      have hres : best_results (ps ++ [p])
          = ((counted ps).filter (fun q => decide (q.2.length = max (best_of ps) p.2.length))).map
              (fun q => q.1)
            ++ (if p.2.length = max (best_of ps) p.2.length then [p.1] else []) := by
        unfold best_results
        rw [e1, counted_append, hc, List.filter_append, List.map_append]
        congr 1
        by_cases hq : p.2.length = max (best_of ps) p.2.length
        · rw [if_pos hq]; simp only [List.filter_cons, List.filter_nil]; rw [← hq]; simp
        · rw [if_neg hq]; simp only [List.filter_cons, List.filter_nil]; simp [hq]
      rw [e1, hres]
      unfold push_result
      simp only [hskip, if_false]
      by_cases hgt : p.2.length > (push_all s ps).best_matchcount
      · simp only [hgt, if_true]
        rw [ih1] at hgt
        have hmax : max (best_of ps) p.2.length = p.2.length := max_eq_right (le_of_lt hgt)
        rw [hmax]
        refine ⟨rfl, ?_⟩
        have hnil : (counted ps).filter (fun q => decide (q.2.length = p.2.length)) = [] := by
          apply List.filter_eq_nil_iff.mpr
          intro q hq
          have := counted_le_best ps q hq
          simp only [decide_eq_true_eq]
          omega
        rw [hnil]
        simp
      · simp only [hgt, if_false]
        by_cases heq : p.2.length = (push_all s ps).best_matchcount
        · rw [if_pos heq]
          rw [ih1] at heq
          have hmax : max (best_of ps) p.2.length = best_of ps := by rw [heq]; exact max_self _
          rw [hmax, if_pos heq]
          refine ⟨ih1, ?_⟩
          rw [ih2]
          rfl
        · rw [if_neg heq]
          rw [ih1] at hgt heq
          have hlt : p.2.length < best_of ps := by omega
          have hmax : max (best_of ps) p.2.length = best_of ps := max_eq_left (le_of_lt hlt)
          rw [hmax, if_neg heq, List.append_nil]
          exact ⟨ih1, ih2⟩

/-! ## Query terms and text tokens -/

theorem add_match_word_all (u : Unicode) (term rest : Str)
    (h : ∀ c ∈ rest, check_wordchar u c ≠ 0) :
    add_match_word u term rest = (term ++ rest.map (check_wordchar u), []) := by
  induction rest generalizing term with
  | nil => simp [add_match_word]
  | cons c rest ih =>
    have hc := h c (List.mem_cons_self c rest)
    unfold add_match_word
    rw [if_neg hc, ih _ (fun d hd => h d (List.mem_cons_of_mem c hd))]
    simp

theorem check_wordchar_id (u : Unicode) (c : Nat) (h : check_wordchar u c ≠ 0) :
    check_wordchar u c = c := by
  unfold check_wordchar at h ⊢
  split_ifs at h ⊢
  · rfl
  · exact absurd rfl h

theorem map_check_wordchar_id (u : Unicode) (q : Str) (h : ∀ c ∈ q, check_wordchar u c ≠ 0) :
    q.map (check_wordchar u) = q := by
  induction q with
  | nil => rfl
  | cons c q ih =>
    rw [List.map_cons, check_wordchar_id u c (h c (List.mem_cons_self c q)),
      ih (fun d hd => h d (List.mem_cons_of_mem c hd))]

/-- After `add_match` of one word on an empty match set, the match set holds the lowered,
stemmed word and nothing else. -/
theorem add_match_one_word (u : Unicode) (s : Internal) (q : Str) (hq : q ≠ [])
    (hw : ∀ c ∈ q, check_wordchar u c ≠ 0) (hm : s.matches_ = []) :
    add_match u s q
      = { s with matches_ := [apply_stemmer s (tolower_str u q)] } := by
  cases q with
  | nil => exact absurd rfl hq
  | cons c rest =>
    have hc := hw c (List.mem_cons_self c rest)
    have hrest : ∀ d ∈ rest, check_wordchar u d ≠ 0 :=
      fun d hd => hw d (List.mem_cons_of_mem c hd)
    unfold add_match
    simp only [List.length_cons]
    unfold add_match_loop
    simp only [add_match_skip, hc, ne_eq, not_false_eq_true, if_true]
    rw [add_match_word_all u _ rest hrest, map_check_wordchar_id u rest hrest,
      check_wordchar_id u c hc]
    simp only [List.singleton_append]
    unfold add_match_loop
    cases rest <;> simp [add_match_skip, set_insert, hm, apply_stemmer]

theorem add_match_loop_only_matches (u : Unicode) (fuel : Nat) :
    ∀ (s : Internal) (itor : List Nat),
      add_match_loop u fuel s itor
        = with_matches s (add_match_loop u fuel s itor).matches_ := by
  induction fuel with
  | zero => intro s itor; rfl
  | succ fuel ih =>
    intro s itor
    unfold add_match_loop
    split
    · rfl
    · rename_i ch rest hsk
      exact (ih _ _).trans rfl

/-- `add_match` changes the match set and nothing else. -/
theorem add_match_only_matches (u : Unicode) (s : Internal) (q : List Nat) :
    add_match u s q = with_matches s (add_match u s q).matches_ :=
  add_match_loop_only_matches u _ s q

theorem term_stem_eq (u : Unicode) (s : Internal) (t : Str) :
    term_stem u s t = apply_stemmer s (tolower_str u (apply_normalizer s t)) := by
  unfold term_stem apply_stemmer apply_normalizer
  rfl

theorem accept_match_cover (s : Internal) (t : Str) (n : Nat) (h : s.match_cover = []) :
    (accept_match s t n).match_cover = [t] := by
  have hp : (push_result s).match_cover = [] := by
    unfold push_result
    simp only []
    split_ifs <;> first | exact h | rfl
  have ho : (open_snippet s).match_cover = [] := by
    unfold open_snippet
    split_ifs
    · exact hp
    · exact h
  have hf : (flush_pending (open_snippet s)).match_cover = [] :=
    (flush_pending_kept _).1.trans ho
  have he : ∀ q : Internal, q.match_cover = [] →
      (emit_match (flush_context q) t n).match_cover = [t] := by
    intro q hq
    show set_insert t q.match_cover = [t]
    rw [hq]; rfl
  unfold accept_match
  simp only []
  split_ifs
  · exact he _ hf
  · exact he _ ho

/-- A text token is highlighted exactly when its stem is in the match set: with an empty
match cover, `accept_term` leaves the term as the whole match cover in the match branch
and leaves the cover empty otherwise. -/
theorem accept_term_highlights_iff (u : Unicode) (s : Internal) (t : Str) (pos n : Nat)
    (hc : s.match_cover = []) :
    (accept_term u s t pos n).match_cover = [t] ↔ term_stem u s t ∈ s.matches_ := by
  have hk := accept_position_kept s pos n
  have hf := accept_position_frame s pos n
  have hpc : (accept_position s pos n).match_cover = [] := hk.1.trans hc
  unfold accept_term
  simp only []
  rw [hf.2.2.2.2.2.2]
  by_cases hm : term_stem u s t ∈ s.matches_
  · simp only [hm, if_true, iff_true]
    exact accept_match_cover _ t n hpc
  · simp only [hm, if_false, iff_false]
    split_ifs
    · rw [(accept_after_kept _ t n).1, hpc]; simp
    · rw [(accept_before_kept _ t n).1, hpc]; simp

/-! ## The context queue -/

theorem pop_excess_spec (cl : Nat) (l : List Str) (ln : Str) :
    (pop_excess cl l ln).1 <:+ l ∧ (pop_excess cl l ln).1.length ≤ cl ∧
    ((pop_excess cl l ln).2 = ln ∨ (pop_excess cl l ln).2 = []) := by
  induction l generalizing ln with
  | nil => simp [pop_excess]
  | cons x xs ih =>
    unfold pop_excess
    split_ifs with h
    · obtain ⟨a, b, c⟩ := ih []
      refine ⟨a.trans (List.suffix_cons x xs), b, Or.inr ?_⟩
      rcases c with c | c <;> exact c
    · exact ⟨List.suffix_refl _, Nat.le_of_not_gt h, Or.inl rfl⟩

theorem pop_excess_fits (cl : Nat) (l : List Str) (ln : Str) (h : l.length ≤ cl) :
    pop_excess cl l ln = (l, ln) := by
  cases l with
  | nil => rfl
  | cons x xs =>
    unfold pop_excess
    rw [if_neg (Nat.not_lt.mpr h)]

variable {E : Str → Prop} {N : Nat → Prop}

theorem push_context_ctx (s : Internal) (t : Str) (h : CtxOK E N s) (ht : E t) :
    CtxOK E N (push_context s t) := by
  obtain ⟨h1, h2, h3⟩ := h
  obtain ⟨a, _, c⟩ := pop_excess_spec s.context_length (s.context ++ [t]) s.leading_nonword
  refine ⟨fun e he => ?_, fun d hd => ?_, h3⟩
  · have := a.subset he
    rcases List.mem_append.mp this with h | h
    · exact h1 e h
    · rw [List.mem_singleton.mp h]; exact ht
  · change d ∈ (pop_excess s.context_length (s.context ++ [t]) s.leading_nonword).2 at hd
    rcases c with c | c
    · rw [c] at hd; exact h2 d hd
    · rw [c] at hd; cases hd

theorem push_context_bounded (s : Internal) (t : Str) : Bounded (push_context s t) :=
  (pop_excess_spec s.context_length (s.context ++ [t]) s.leading_nonword).2.1

theorem flush_pending_ctx (s : Internal) (h : CtxOK E N s) :
    CtxOK E N (flush_pending s) := by
  unfold flush_pending
  split_ifs with hp
  · obtain ⟨a, b, _⟩ := push_context_ctx s s.pending_1gram h (h.2.2 hp)
    exact ⟨a, b, fun hne => absurd rfl hne⟩
  · exact h

theorem flush_pending_bounded (s : Internal) (h : Bounded s) : Bounded (flush_pending s) := by
  unfold flush_pending
  split_ifs
  · exact push_context_bounded s s.pending_1gram
  · exact h

theorem flush_pending_pending (s : Internal) : (flush_pending s).pending_1gram = [] := by
  unfold flush_pending
  split_ifs with hp
  · rfl
  · exact not_not.mp hp

theorem accept_position_ctx (s : Internal) (pos n : Nat) (h : CtxOK E N s) :
    CtxOK E N (accept_position s pos n) := by
  obtain ⟨h1, h2, h3⟩ := h
  unfold accept_position
  simp only []
  split_ifs <;>
    first
    | exact ⟨h1, h2, h3⟩
    | exact ⟨fun e he => (by cases he), fun c hc => (by cases hc), fun hne => absurd rfl hne⟩

theorem accept_position_bounded (s : Internal) (pos n : Nat) (h : Bounded s) :
    Bounded (accept_position s pos n) := by
  unfold accept_position Bounded
  simp only []
  split_ifs <;> first | exact h | exact Nat.zero_le _

theorem open_snippet_ctx (s : Internal) (h : CtxOK E N s) : CtxOK E N (open_snippet s) := by
  have hc : (push_result s).context = s.context := by
    unfold push_result; simp only []; split_ifs <;> rfl
  have hp : (push_result s).pending_1gram = s.pending_1gram := by
    unfold push_result; simp only []; split_ifs <;> rfl
  unfold open_snippet
  split_ifs
  · refine ⟨fun e he => h.1 e (hc ▸ he), fun c hc' => (by cases hc'), fun hne => ?_⟩
    have hne' : s.pending_1gram ≠ [] := fun h0 => hne (hp.trans h0)
    exact hp ▸ h.2.2 hne'
  · exact ⟨h.1, fun c hc' => (by cases hc'), h.2.2⟩

theorem open_snippet_context (s : Internal) : (open_snippet s).context = s.context := by
  have hc : (push_result s).context = s.context := by
    unfold push_result; simp only []; split_ifs <;> rfl
  unfold open_snippet
  split_ifs
  · exact hc
  · rfl

theorem open_snippet_context_length (s : Internal) :
    (open_snippet s).context_length = s.context_length := (open_snippet_frame s).2.2.2.2.2.1

theorem open_snippet_bounded (s : Internal) (h : Bounded s) : Bounded (open_snippet s) := by
  unfold Bounded
  rw [open_snippet_context, open_snippet_context_length]
  exact h

theorem emit_flush_ctx (s : Internal) (t : Str) (n : Nat) (h : CtxOK E N s) :
    CtxOK E N (emit_match (flush_context s) t n) :=
  ⟨fun e he => (by cases he), h.2.1, h.2.2⟩

theorem accept_match_ctx (s : Internal) (t : Str) (n : Nat) (h : CtxOK E N s) :
    CtxOK E N (accept_match s t n) := by
  have h1 := open_snippet_ctx (E := E) (N := N) s h
  have h2 := flush_pending_ctx (E := E) (N := N) _ h1
  unfold accept_match
  simp only []
  split_ifs
  · exact emit_flush_ctx _ t n h2
  · exact emit_flush_ctx _ t n h1

theorem accept_match_bounded (s : Internal) (t : Str) (n : Nat) :
    Bounded (accept_match s t n) := Nat.zero_le _

theorem accept_after_ctx (s : Internal) (t : Str) (n : Nat) (h : CtxOK E N s) :
    CtxOK E N (accept_after s t n) := by
  unfold accept_after
  split_ifs <;> exact h

theorem accept_after_bounded (s : Internal) (t : Str) (n : Nat) (h : Bounded s) :
    Bounded (accept_after s t n) := by
  unfold accept_after
  split_ifs <;> exact h

theorem accept_before_ctx (s : Internal) (t : Str) (n : Nat) (h : CtxOK E N s) (ht : E t) :
    CtxOK E N (accept_before s t n) := by
  have hp := flush_pending_ctx (E := E) (N := N) s h
  unfold accept_before
  simp only []
  generalize flush_pending s = q at hp
  split_ifs
  · exact push_context_ctx s t h ht
  · exact hp
  · exact ⟨hp.1, hp.2.1, fun _ => ht⟩
  · exact h

theorem accept_before_bounded (s : Internal) (t : Str) (n : Nat) (h : Bounded s) :
    Bounded (accept_before s t n) := by
  have hp := flush_pending_bounded s h
  unfold accept_before
  simp only []
  generalize flush_pending s = q at hp
  split_ifs <;> first | exact push_context_bounded s t | exact hp | exact h

theorem accept_term_ctx (u : Unicode) (s : Internal) (t : Str) (pos n : Nat)
    (h : CtxOK E N s) (ht : E t) : CtxOK E N (accept_term u s t pos n) := by
  have hp := accept_position_ctx (E := E) (N := N) s pos n h
  unfold accept_term
  simp only []
  split_ifs
  · exact accept_match_ctx _ t n hp
  · exact accept_after_ctx _ t n hp
  · exact accept_before_ctx _ t n hp ht

theorem accept_term_bounded (u : Unicode) (s : Internal) (t : Str) (pos n : Nat)
    (h : Bounded s) : Bounded (accept_term u s t pos n) := by
  have hp := accept_position_bounded s pos n h
  unfold accept_term
  simp only []
  split_ifs
  · exact accept_match_bounded _ t n
  · exact accept_after_bounded _ t n hp
  · exact accept_before_bounded _ t n hp

theorem append_last_mem (l : List Str) (x : Str)
    (e : Str) (he : e ∈ l.dropLast ++ [x]) : e ∈ l ∨ e = x := by
  rcases List.mem_append.mp he with h | h
  · exact Or.inl (List.dropLast_subset l h)
  · exact Or.inr (List.mem_singleton.mp h)

theorem append_last_length (l : List Str) (last : Str) (x : Str)
    (hl : l.getLast? = some last) : (l.dropLast ++ [x]).length = l.length := by
  have hne : l ≠ [] := by
    intro h0; rw [h0] at hl; cases hl
  have : 0 < l.length := List.length_pos.mpr hne
  simp only [List.length_append, List.length_dropLast, List.length_singleton]
  omega

theorem route_nonword_char_ctx (s : Internal) (ch pos : Nat) (h : CtxOK E N s) (hch : N ch)
    (hE : ∀ e c, E e → N c → E (e ++ [c])) : CtxOK E N (route_nonword_char s ch pos) := by
  have hp := flush_pending_ctx (E := E) (N := N) s h
  have hlead : ∀ (l : Str), (∀ c ∈ l, N c) → ∀ c ∈ l ++ [ch], N c := by
    intro l hl c hc
    rcases List.mem_append.mp hc with h | h
    · exact hl c h
    · rw [List.mem_singleton.mp h]; exact hch
  unfold route_nonword_char
  simp only []
  generalize flush_pending s = q at hp
  split_ifs
  · exact ⟨hp.1, hlead _ hp.2.1, hp.2.2⟩
  · exact ⟨hp.1, hlead _ hp.2.1, hp.2.2⟩
  · exact hp
  · split
    · rename_i last hl
      refine ⟨fun e he => ?_, hp.2.1, hp.2.2⟩
      rcases append_last_mem _ _ e he with h | h
      · exact hp.1 e h
      · rw [h]; exact hE _ _ (hp.1 last (List.mem_of_getLast?_eq_some hl)) hch
    · exact hp

theorem route_nonword_char_bounded (s : Internal) (ch pos : Nat) (h : Bounded s) :
    Bounded (route_nonword_char s ch pos) := by
  have hp := flush_pending_bounded s h
  unfold route_nonword_char
  simp only []
  generalize flush_pending s = q at hp
  split_ifs
  · exact hp
  · exact hp
  · exact hp
  · split
    · rename_i last hl
      exact (append_last_length _ last _ hl).trans_le hp
    · exact hp

theorem accept_nonword_char_ctx (u : Unicode) (s : Internal) (ch pos : Nat)
    (h : CtxOK E N s) (hch : N ch) (hsp : N 32)
    (hE : ∀ e c, E e → N c → E (e ++ [c])) : CtxOK E N (accept_nonword_char u s ch pos) := by
  unfold accept_nonword_char
  simp only []
  split_ifs
  · refine ⟨h.1, fun c hc => ?_, h.2.2⟩
    rcases List.mem_append.mp hc with h' | h'
    · exact h.2.1 c h'
    · rw [List.mem_singleton.mp h']; exact hch
  · exact h
  · exact route_nonword_char_ctx _ 32 pos h hsp hE
  · exact route_nonword_char_ctx _ ch pos h hch hE

theorem accept_nonword_char_bounded (u : Unicode) (s : Internal) (ch pos : Nat)
    (h : Bounded s) : Bounded (accept_nonword_char u s ch pos) := by
  unfold accept_nonword_char
  simp only []
  split_ifs
  · exact h
  · exact h
  · exact route_nonword_char_bounded _ 32 pos h
  · exact route_nonword_char_bounded _ ch pos h

theorem deliver_ctx (u : Unicode) (s : Internal) (e : Event) (h : CtxOK E N s)
    (he : EventOK E N e) (hsp : N 32) (hE : ∀ e c, E e → N c → E (e ++ [c])) :
    CtxOK E N (deliver u s e) := by
  cases e with
  | term t n => exact accept_term_ctx u _ t _ n h he
  | nonword ch => exact accept_nonword_char_ctx u s ch _ h he hsp hE

theorem deliver_bounded (u : Unicode) (s : Internal) (e : Event) (h : Bounded s) :
    Bounded (deliver u s e) := by
  cases e with
  | term t n => exact accept_term_bounded u _ t _ n h
  | nonword ch => exact accept_nonword_char_bounded u s ch _ h

/-! ## The shape of a snippet -/

theorem flush_pending_runeq (s : Internal) : RunEq (flush_pending s) s := by
  unfold flush_pending
  split_ifs <;> exact ⟨rfl, rfl, rfl, rfl, rfl, rfl, rfl⟩

theorem push_result_pushes (s : Internal) (h1 : s.result ≠ []) (h2 : s.match_cover ≠ []) :
    (push_result s).result = [] ∧ (push_result s).match_cover = [] ∧
    (∀ r ∈ (push_result s).snippets, r ∈ s.snippets ∨ r = s.result) ∧
    (push_result s).context = s.context ∧ (push_result s).xpos = s.xpos ∧
    (push_result s).lastpos = s.lastpos ∧ (push_result s).termpos = s.termpos ∧
    (push_result s).horizon = s.horizon := by
  have h3 : s.match_cover.length ≠ 0 := fun h => h2 (List.length_eq_zero.mp h)
  have hcond : ¬ (s.result = [] ∨ s.match_cover.length = 0) := fun h => h.elim h1 h3
  unfold push_result
  simp only []
  rw [if_neg hcond]
  split_ifs
  · exact ⟨rfl, rfl, fun r hr => Or.inr (List.mem_singleton.mp hr), rfl, rfl, rfl, rfl, rfl⟩
  · refine ⟨rfl, rfl, fun r hr => ?_, rfl, rfl, rfl, rfl, rfl⟩
    rcases List.mem_append.mp hr with h | h
    · exact Or.inl h
    · exact Or.inr (List.mem_singleton.mp h)
  · exact ⟨rfl, rfl, fun r hr => Or.inl hr, rfl, rfl, rfl, rfl, rfl⟩

variable {T : Str → Prop} {M : Str → Prop}

theorem CtxOK.congr {a b : Internal} (h : CtxOK E N b) (e1 : a.context = b.context)
    (e2 : a.leading_nonword = b.leading_nonword) (e3 : a.pending_1gram = b.pending_1gram) :
    CtxOK E N a := by
  unfold CtxOK
  rw [e1, e2, e3]
  exact h

theorem flush_pending_termpos (s : Internal) : (flush_pending s).termpos = s.termpos :=
  (flush_pending_runeq s).2.2.2.2.2.2

theorem push_result_termpos (s : Internal) : (push_result s).termpos = s.termpos := by
  unfold push_result
  simp only []
  split_ifs <;> rfl

theorem open_snippet_termpos (s : Internal) : (open_snippet s).termpos = s.termpos := by
  unfold open_snippet
  split_ifs
  · exact push_result_termpos s
  · rfl

theorem accept_match_termpos (s : Internal) (t : Str) (n : Nat) :
    (accept_match s t n).termpos = s.termpos := by
  unfold accept_match
  simp only []
  split_ifs
  · exact (flush_pending_termpos _).trans (open_snippet_termpos s)
  · exact open_snippet_termpos s

theorem accept_after_termpos (s : Internal) (t : Str) (n : Nat) :
    (accept_after s t n).termpos = s.termpos := by
  unfold accept_after
  split_ifs <;> rfl

theorem accept_before_termpos (s : Internal) (t : Str) (n : Nat) :
    (accept_before s t n).termpos = s.termpos := by
  have hf := flush_pending_termpos s
  unfold accept_before
  simp only []
  generalize flush_pending s = q at hf
  split_ifs <;> first | rfl | exact hf

theorem accept_position_termpos (s : Internal) (pos n : Nat) :
    (accept_position s pos n).termpos = s.termpos := by
  unfold accept_position
  simp only []
  split_ifs <;> rfl

theorem accept_term_termpos (u : Unicode) (s : Internal) (t : Str) (pos n : Nat) :
    (accept_term u s t pos n).termpos = s.termpos := by
  have hp := accept_position_termpos s pos n
  unfold accept_term
  simp only []
  split_ifs
  · exact (accept_match_termpos _ t n).trans hp
  · exact (accept_after_termpos _ t n).trans hp
  · exact (accept_before_termpos _ t n).trans hp

theorem route_nonword_char_termpos (s : Internal) (ch pos : Nat) :
    (route_nonword_char s ch pos).termpos = s.termpos := by
  have hf := flush_pending_termpos s
  unfold route_nonword_char
  simp only []
  generalize flush_pending s = q at hf
  split_ifs <;> first | exact hf | (split <;> exact hf)

theorem accept_nonword_char_termpos (u : Unicode) (s : Internal) (ch pos : Nat) :
    (accept_nonword_char u s ch pos).termpos = s.termpos := by
  unfold accept_nonword_char
  simp only []
  split_ifs <;> first | rfl | exact route_nonword_char_termpos _ _ pos

theorem skip_nonword_events (u : Unicode) (l : List Nat) :
    ∀ e ∈ (skip_nonword u l).1, ∃ c, e = Event.nonword c := by
  induction l with
  | nil => intro e he; cases he
  | cons c rest ih =>
    intro e he
    unfold skip_nonword at he
    split_ifs at he
    · cases he
    · rcases List.mem_cons.mp he with h | h
      · exact ⟨c, h⟩
      · exact ih e h

theorem flush_pending_lastpos (s : Internal) : (flush_pending s).lastpos = s.lastpos :=
  (flush_pending_runeq s).2.2.2.2.2.1

theorem push_result_lastpos (s : Internal) : (push_result s).lastpos = s.lastpos := by
  unfold push_result
  simp only []
  split_ifs <;> rfl

theorem open_snippet_lastpos (s : Internal) : (open_snippet s).lastpos = s.lastpos := by
  unfold open_snippet
  split_ifs
  · exact push_result_lastpos s
  · rfl

theorem accept_match_lastpos (s : Internal) (t : Str) (n : Nat) :
    (accept_match s t n).lastpos = s.lastpos := by
  unfold accept_match
  simp only []
  split_ifs
  · exact (flush_pending_lastpos _).trans (open_snippet_lastpos s)
  · exact open_snippet_lastpos s

theorem accept_after_lastpos (s : Internal) (t : Str) (n : Nat) :
    (accept_after s t n).lastpos = s.lastpos := by
  unfold accept_after
  split_ifs <;> rfl

theorem accept_before_lastpos (s : Internal) (t : Str) (n : Nat) :
    (accept_before s t n).lastpos = s.lastpos := by
  have hf := flush_pending_lastpos s
  unfold accept_before
  simp only []
  generalize flush_pending s = q at hf
  split_ifs <;> first | rfl | exact hf

theorem accept_position_lastpos (s : Internal) (pos n : Nat) :
    (accept_position s pos n).lastpos = pos := by
  unfold accept_position
  rfl

theorem accept_term_lastpos (u : Unicode) (s : Internal) (t : Str) (pos n : Nat) :
    (accept_term u s t pos n).lastpos = pos := by
  have hp := accept_position_lastpos s pos n
  unfold accept_term
  simp only []
  split_ifs
  · exact (accept_match_lastpos _ t n).trans hp
  · exact (accept_after_lastpos _ t n).trans hp
  · exact (accept_before_lastpos _ t n).trans hp

theorem route_nonword_char_lastpos (s : Internal) (ch pos : Nat) :
    (route_nonword_char s ch pos).lastpos = s.lastpos := by
  have hf := flush_pending_lastpos s
  unfold route_nonword_char
  simp only []
  generalize flush_pending s = q at hf
  split_ifs <;> first | exact hf | (split <;> exact hf)

theorem accept_nonword_char_lastpos (u : Unicode) (s : Internal) (ch pos : Nat) :
    (accept_nonword_char u s ch pos).lastpos = s.lastpos := by
  unfold accept_nonword_char
  simp only []
  split_ifs <;> first | rfl | exact route_nonword_char_lastpos _ _ pos

/-- After a term was handed over, `lastpos` is `termpos`; a non-word character changes
neither. -/
theorem deliver_lastpos (u : Unicode) (s : Internal) (e : Event)
    (h : s.lastpos = s.termpos) : (deliver u s e).lastpos = (deliver u s e).termpos := by
  cases e with
  | term t n =>
    show (accept_term u _ t _ n).lastpos = (accept_term u _ t _ n).termpos
    rw [accept_term_lastpos, accept_term_termpos]
  | nonword ch =>
    show (accept_nonword_char u s ch _).lastpos = (accept_nonword_char u s ch _).termpos
    rw [accept_nonword_char_lastpos, accept_nonword_char_termpos]
    exact h

theorem foldl_deliver_lastpos (u : Unicode) (evs : List Event) :
    ∀ s : Internal, s.lastpos = s.termpos →
      (evs.foldl (deliver u) s).lastpos = (evs.foldl (deliver u) s).termpos := by
  induction evs with
  | nil => intro s h; exact h
  | cons e evs ih => intro s h; exact ih _ (deliver_lastpos u s e h)

theorem accept_position_result (s : Internal) (pos n : Nat) :
    (accept_position s pos n).result = s.result := by
  unfold accept_position
  simp only []
  split_ifs <;> rfl

theorem push_result_blank (s : Internal) (h : Blank s) : Blank (push_result s) := by
  have he : push_result s = s := by
    unfold push_result
    simp [h.2.1]
  rw [he]; exact h

theorem apply_op_blank (u : Unicode) (s : Internal) (op : Op) (h : Blank s)
    (hop : op.is_add_match = false) :
    Blank (apply_op u s op).1 ∧ ∀ out, (apply_op u s op).2 = some out → out = [] := by
  cases op with
  | add_match t => cases hop
  | accept_text t => exact ⟨accept_text_blank u s t h, fun out ho => by cases ho⟩
  | increase_termpos d => exact ⟨h, fun out ho => by cases ho⟩
  | set_termpos p => exact ⟨h, fun out ho => by cases ho⟩
  | get_snippets =>
    refine ⟨push_result_blank s h, fun out ho => ?_⟩
    have h1 : (get_snippets s).1 = out := Option.some.inj ho
    rw [← h1]; exact get_snippets_blank s h
  | reset => exact ⟨⟨rfl, rfl, rfl⟩, fun out ho => by cases ho⟩

theorem run_blank (u : Unicode) (ops : List Op) :
    ∀ s : Internal, Blank s → (∀ op ∈ ops, op.is_add_match = false) →
      Blank (run u s ops).1 ∧ ∀ out ∈ (run u s ops).2, out = [] := by
  induction ops with
  | nil => intro s h _; exact ⟨h, fun out ho => by cases ho⟩
  | cons op ops ih =>
    intro s h hops
    have h1 := apply_op_blank u s op h (hops op (List.mem_cons_self op ops))
    have h2 := ih (apply_op u s op).1 h1.1 (fun o ho => hops o (List.mem_cons_of_mem op ho))
    unfold run
    simp only []
    cases hr : (apply_op u s op).2 with
    | none => exact h2
    | some out =>
      refine ⟨h2.1, fun o ho => ?_⟩
      rcases List.mem_cons.mp ho with h3 | h3
      · rw [h3]; exact h1.2 out hr
      · exact h2.2 o h3

/-! ## The context bound -/

theorem push_result_context (s : Internal) :
    (push_result s).context = s.context ∧ (push_result s).context_length = s.context_length := by
  unfold push_result
  simp only []
  split_ifs <;> exact ⟨rfl, rfl⟩

/-! ## Positions -/

theorem deliver_order (u : Unicode) (s : Internal) (e : Event)
    (h : s.lastpos ≤ s.termpos) : (deliver u s e).lastpos ≤ (deliver u s e).termpos := by
  cases e with
  | term t n =>
    show (accept_term u _ t _ n).lastpos ≤ (accept_term u _ t _ n).termpos
    rw [accept_term_lastpos, accept_term_termpos]
  | nonword ch =>
    show (accept_nonword_char u s ch _).lastpos ≤ (accept_nonword_char u s ch _).termpos
    rw [accept_nonword_char_lastpos, accept_nonword_char_termpos]
    exact h

theorem foldl_deliver_order (u : Unicode) (evs : List Event) :
    ∀ s : Internal, s.lastpos ≤ s.termpos →
      (evs.foldl (deliver u) s).lastpos ≤ (evs.foldl (deliver u) s).termpos := by
  induction evs with
  | nil => intro s h; exact h
  | cons e evs ih => intro s h; exact ih _ (deliver_order u s e h)

theorem add_match_positions (u : Unicode) (s : Internal) (q : List Nat) :
    (add_match u s q).lastpos = s.lastpos ∧ (add_match u s q).termpos = s.termpos := by
  rw [add_match_only_matches u s q]
  exact ⟨rfl, rfl⟩

theorem deliver_termpos (u : Unicode) (s : Internal) (e : Event) :
    (deliver u s e).termpos = if e.is_term then uadd s.termpos 1 else s.termpos := by
  cases e with
  | term t n =>
    show (accept_term u _ t _ n).termpos = _
    rw [accept_term_termpos]; rfl
  | nonword ch =>
    show (accept_nonword_char u s ch _).termpos = _
    rw [accept_nonword_char_termpos]; rfl

theorem foldl_deliver_termpos (u : Unicode) (evs : List Event) :
    ∀ s : Internal, s.termpos < 4294967296 →
      (evs.foldl (deliver u) s).termpos
        = (s.termpos + (evs.filter Event.is_term).length) % 4294967296 := by
  induction evs with
  | nil =>
    intro s h
    simp only [List.foldl_nil, List.filter_nil, List.length_nil, Nat.add_zero]
    exact (Nat.mod_eq_of_lt h).symm
  | cons e evs ih =>
    intro s h
    have hd := deliver_termpos u s e
    rw [List.foldl_cons]
    cases he : e.is_term with
    | true =>
      rw [he, if_pos rfl] at hd
      have hlt : (deliver u s e).termpos < 4294967296 := by
        rw [hd]; unfold uadd; exact Nat.mod_lt _ (by decide)
      rw [ih _ hlt, hd, List.filter_cons_of_pos he, List.length_cons]
      unfold uadd
      omega
    | false =>
      rw [he] at hd
      have hd2 : (deliver u s e).termpos = s.termpos := hd
      have hne : ¬ (e.is_term = true) := by rw [he]; decide
      rw [ih _ (hd2 ▸ h), hd2, List.filter_cons_of_neg hne]

theorem skip_nonword_no_term (u : Unicode) (itor : List Nat) :
    (skip_nonword u itor).1.filter Event.is_term = [] := by
  rw [List.filter_eq_nil_iff]
  intro e he
  obtain ⟨ch, hch⟩ := skip_nonword_events u itor e he
  rw [hch]; simp [Event.is_term]

theorem tokenize_loop_terms (u : Unicode) (fuel : Nat) :
    ∀ itor : List Nat,
      (tokenize_loop u fuel itor).filter Event.is_term
        = ((scan_tokens_loop u fuel itor).filter
            (fun t => decide (str_size t ≤ MAX_PROB_TERM_LENGTH))).map
            (fun t => Event.term t 0) := by
  induction fuel with
  | zero => intro itor; rfl
  | succ fuel ih =>
    intro itor
    unfold tokenize_loop scan_tokens_loop
    simp only []
    have hsk := skip_nonword_no_term u itor
    cases h2 : (skip_nonword u itor).2 with
    | nil => simpa using hsk
    | cons c rest =>
      simp only []
      by_cases hsz : str_size (scan_term u c rest).1 > MAX_PROB_TERM_LENGTH
      · rw [if_pos hsz, List.filter_append, hsk, List.nil_append, ih,
          List.filter_cons_of_neg (by simpa using hsz)]
      · rw [if_neg hsz, List.filter_append, hsk, List.nil_append,
          List.filter_cons_of_pos (by rfl), ih,
          List.filter_cons_of_pos (by simpa using hsz), List.map_cons]

theorem tokenize_terms (u : Unicode) (text : List Nat) :
    (tokenize u text).filter Event.is_term
      = ((scan_tokens u text).filter
          (fun t => decide (str_size t ≤ MAX_PROB_TERM_LENGTH))).map
          (fun t => Event.term t 0) :=
  tokenize_loop_terms u _ text

theorem term_event_of_tokenize (u : Unicode) (text : List Nat) (t : Str) (n : Nat)
    (h : Event.term t n ∈ tokenize u text) : n = 0 ∧ str_size t ≤ MAX_PROB_TERM_LENGTH := by
  have hm : Event.term t n ∈ (tokenize u text).filter Event.is_term :=
    List.mem_filter.mpr ⟨h, rfl⟩
  rw [tokenize_terms, List.mem_map] at hm
  obtain ⟨t2, ht2, he⟩ := hm
  have h1 : t2 = t := by injection he
  have h2 : 0 = n := by injection he
  rw [List.mem_filter] at ht2
  exact ⟨h2.symm, h1 ▸ of_decide_eq_true ht2.2⟩

/-! ## The words of a query string -/

theorem check_wordchar_ne_zero (u : Unicode) (h0 : u.is_wordchar 0 = false) (c : Nat) :
    check_wordchar u c ≠ 0 ↔ u.is_wordchar c = true := by
  unfold check_wordchar
  by_cases hc : u.is_wordchar c = true
  · rw [if_pos hc]
    refine ⟨fun _ => hc, fun _ hz => ?_⟩
    rw [hz, h0] at hc
    cases hc
  · rw [if_neg hc]
    exact ⟨fun h => absurd rfl h, fun h => absurd h hc⟩

theorem wordchar_runs_nil (u : Unicode) : wordchar_runs u [] = [] := by
  unfold wordchar_runs
  rw [List.splitOnP_nil]
  rfl

theorem wordchar_runs_skip (u : Unicode) (c : Nat) (rest : List Nat)
    (hc : u.is_wordchar c = false) : wordchar_runs u (c :: rest) = wordchar_runs u rest := by
  unfold wordchar_runs
  rw [List.splitOnP_cons]
  simp [hc]

theorem wordchar_runs_word_end (u : Unicode) (w : Str) (hne : w ≠ [])
    (hw : ∀ c ∈ w, u.is_wordchar c = true) : wordchar_runs u w = [w] := by
  unfold wordchar_runs
  rw [List.splitOnP_eq_single _ w (fun c hc => by simp [hw c hc])]
  simp [hne]

theorem wordchar_runs_word (u : Unicode) (w : Str) (sep : Nat) (rest : List Nat)
    (hne : w ≠ []) (hw : ∀ c ∈ w, u.is_wordchar c = true) (hs : u.is_wordchar sep = false) :
    wordchar_runs u (w ++ sep :: rest) = w :: wordchar_runs u rest := by
  unfold wordchar_runs
  rw [List.splitOnP_first _ w (fun c hc => by simp [hw c hc]) sep (by simp [hs])]
  simp [hne]

theorem add_match_skip_none (u : Unicode) (h0 : u.is_wordchar 0 = false) :
    ∀ itor : List Nat, add_match_skip u itor = none → wordchar_runs u itor = [] := by
  intro itor
  induction itor with
  | nil => intro _; exact wordchar_runs_nil u
  | cons c rest ih =>
    intro h
    unfold add_match_skip at h
    split_ifs at h with hc
    have hc2 : u.is_wordchar c = false := by
      cases hw : u.is_wordchar c with
      | false => rfl
      | true => exact absurd ((check_wordchar_ne_zero u h0 c).mpr hw) hc
    rw [wordchar_runs_skip u c rest hc2]
    exact ih h

theorem add_match_skip_some (u : Unicode) (h0 : u.is_wordchar 0 = false) :
    ∀ (itor : List Nat) (ch : Nat) (rest : List Nat),
      add_match_skip u itor = some (ch, rest) →
        u.is_wordchar ch = true ∧ rest.length < itor.length ∧
        wordchar_runs u itor = wordchar_runs u (ch :: rest) := by
  intro itor
  induction itor with
  | nil => intro ch rest h; cases h
  | cons c tl ih =>
    intro ch rest h
    unfold add_match_skip at h
    split_ifs at h with hc
    · have hw := (check_wordchar_ne_zero u h0 c).mp hc
      rw [check_wordchar_id u c hc] at h
      have h1 : c = ch := by injection h with h; injection h
      have h2 : tl = rest := by injection h with h; injection h
      subst h1; subst h2
      exact ⟨hw, Nat.lt_succ_self _, rfl⟩
    · have hc2 : u.is_wordchar c = false := by
        cases hw : u.is_wordchar c with
        | false => rfl
        | true => exact absurd ((check_wordchar_ne_zero u h0 c).mpr hw) hc
      obtain ⟨a, b, d⟩ := ih ch rest h
      refine ⟨a, Nat.lt_succ_of_lt b, ?_⟩
      rw [wordchar_runs_skip u c tl hc2]
      exact d

theorem add_match_word_runs (u : Unicode) (h0 : u.is_wordchar 0 = false) :
    ∀ (itor : List Nat) (term : Str), term ≠ [] → (∀ c ∈ term, u.is_wordchar c = true) →
      (add_match_word u term itor).2.length ≤ itor.length ∧
      wordchar_runs u (term ++ itor)
        = (add_match_word u term itor).1 :: wordchar_runs u (add_match_word u term itor).2 := by
  intro itor
  induction itor with
  | nil =>
    intro term hne hw
    unfold add_match_word
    rw [List.append_nil, wordchar_runs_nil]
    exact ⟨Nat.le_refl _, wordchar_runs_word_end u term hne hw⟩
  | cons c rest ih =>
    intro term hne hw
    unfold add_match_word
    by_cases hc : check_wordchar u c = 0
    · rw [if_pos hc]
      have hc2 : u.is_wordchar c = false := by
        cases hw2 : u.is_wordchar c with
        | false => rfl
        | true => exact absurd hc ((check_wordchar_ne_zero u h0 c).mpr hw2)
      refine ⟨Nat.le_refl _, ?_⟩
      rw [wordchar_runs_word u term c rest hne hw hc2, wordchar_runs_skip u c rest hc2]
    · rw [if_neg hc, check_wordchar_id u c hc]
      have hw2 := (check_wordchar_ne_zero u h0 c).mp hc
      have h3 := ih (term ++ [c]) (by simp) (fun d hd => by
        rcases List.mem_append.mp hd with h | h
        · exact hw d h
        · rw [List.mem_singleton.mp h]; exact hw2)
      refine ⟨Nat.le_succ_of_le h3.1, ?_⟩
      rw [← h3.2, List.append_assoc]
      rfl

theorem add_match_loop_runs (u : Unicode) (h0 : u.is_wordchar 0 = false) (fuel : Nat) :
    ∀ (s : Internal) (itor : List Nat), itor.length < fuel →
      (add_match_loop u fuel s itor).matches_
        = insert_words u s (wordchar_runs u itor) s.matches_ := by
  induction fuel with
  | zero => intro s itor h; exact absurd h (Nat.not_lt_zero _)
  | succ fuel ih =>
    intro s itor hf
    unfold add_match_loop
    cases hsk : add_match_skip u itor with
    | none =>
      simp only []
      rw [add_match_skip_none u h0 itor hsk]
      rfl
    | some p =>
      obtain ⟨ch, rest⟩ := p
      simp only []
      obtain ⟨hch, hlen, hruns⟩ := add_match_skip_some u h0 itor ch rest hsk
      have hw := add_match_word_runs u h0 rest [ch] (by simp) (fun d hd => by
        rw [List.mem_singleton.mp hd]; exact hch)
      rw [ih _ _ (by omega), hruns]
      have hcons : ch :: rest = [ch] ++ rest := rfl
      rw [hcons, hw.2]
      rfl

theorem add_match_runs (u : Unicode) (h0 : u.is_wordchar 0 = false) (s : Internal)
    (q : List Nat) :
    (add_match u s q).matches_ = insert_words u s (wordchar_runs u q) s.matches_ :=
  add_match_loop_runs u h0 _ s q (Nat.lt_succ_self _)

theorem mem_set_insert (x y : Str) (m : List Str) : x ∈ set_insert y m ↔ x ∈ m ∨ x = y := by
  unfold set_insert
  split_ifs with h
  · exact ⟨Or.inl, fun h2 => h2.elim id (fun e => e ▸ h)⟩
  · rw [List.mem_append, List.mem_singleton]

theorem mem_insert_words (u : Unicode) (s : Internal) (ws : List Str) :
    ∀ (m : List Str) (x : Str),
      x ∈ insert_words u s ws m
        ↔ x ∈ m ∨ ∃ w ∈ ws, x = apply_stemmer s (tolower_str u w) := by
  induction ws with
  | nil => intro m x; simp [insert_words]
  | cons w ws ih =>
    intro m x
    show x ∈ insert_words u s ws (set_insert _ m) ↔ _
    rw [ih, mem_set_insert]
    constructor
    · rintro ((h | h) | ⟨w2, hw2, h⟩)
      · exact Or.inl h
      · exact Or.inr ⟨w, List.mem_cons_self _ _, h⟩
      · exact Or.inr ⟨w2, List.mem_cons_of_mem _ hw2, h⟩
    · rintro (h | ⟨w2, hw2, h⟩)
      · exact Or.inl (Or.inl h)
      · rcases List.mem_cons.mp hw2 with e | e
        · exact Or.inl (Or.inr (e ▸ h))
        · exact Or.inr ⟨w2, e, h⟩

theorem wordchar_runs_none (u : Unicode) :
    ∀ q : List Nat, (∀ c ∈ q, u.is_wordchar c = false) → wordchar_runs u q = [] := by
  intro q
  induction q with
  | nil => intro _; exact wordchar_runs_nil u
  | cons c rest ih =>
    intro h
    rw [wordchar_runs_skip u c rest (h c (List.mem_cons_self _ _))]
    exact ih (fun d hd => h d (List.mem_cons_of_mem _ hd))

theorem splitOnP_at_sep (p : Nat → Bool) (sep : Nat) (hs : p sep = true) (b : List Nat) :
    ∀ a : List Nat, (a ++ sep :: b).splitOnP p = a.splitOnP p ++ b.splitOnP p := by
  intro a
  induction a with
  | nil =>
    rw [List.nil_append, List.splitOnP_cons, if_pos hs, List.splitOnP_nil]
    rfl
  | cons c a ih =>
    rw [List.cons_append, List.splitOnP_cons, List.splitOnP_cons, ih]
    by_cases hc : p c = true
    · rw [if_pos hc, if_pos hc]; rfl
    · rw [if_neg hc, if_neg hc]
      cases h : a.splitOnP p with
      | nil => exact absurd h (List.splitOnP_ne_nil p a)
      | cons x xs => rfl

theorem wordchar_runs_at_sep (u : Unicode) (a : List Nat) (sep : Nat) (b : List Nat)
    (hs : u.is_wordchar sep = false) :
    wordchar_runs u (a ++ sep :: b) = wordchar_runs u a ++ wordchar_runs u b := by
  unfold wordchar_runs
  rw [splitOnP_at_sep _ sep (by simp [hs]) b a, List.filter_append]

theorem wordchar_runs_of_maximal (u : Unicode) (q : List Nat) (w : Str)
    (h : MaximalRun u q w) : w ∈ wordchar_runs u q := by
  obtain ⟨hne, hw, pre, post, hq, hpre, hpost⟩ := h
  have hmid : w ∈ wordchar_runs u (w ++ post) := by
    rcases hpost with hp | ⟨sep, r, hp, hsep⟩
    · rw [hp, List.append_nil, wordchar_runs_word_end u w hne hw]
      exact List.mem_singleton.mpr rfl
    · rw [hp, wordchar_runs_word u w sep r hne hw hsep]
      exact List.mem_cons_self _ _
  rw [hq, List.append_assoc]
  rcases hpre with hp | ⟨l, sep, hp, hsep⟩
  · rw [hp, List.nil_append]; exact hmid
  · rw [hp, List.append_assoc, List.singleton_append, wordchar_runs_at_sep u l sep _ hsep]
    exact List.mem_append_right _ hmid

theorem MaximalRun.after (u : Unicode) (a : List Nat) (sep : Nat) (b : List Nat) (w : Str)
    (hs : u.is_wordchar sep = false) (h : MaximalRun u b w) :
    MaximalRun u (a ++ sep :: b) w := by
  obtain ⟨hne, hw, pre, post, hq, hpre, hpost⟩ := h
  refine ⟨hne, hw, a ++ sep :: pre, post, by rw [hq]; simp, ?_, hpost⟩
  rcases hpre with hp | ⟨l, sep2, hp, hsep2⟩
  · exact Or.inr ⟨a, sep, by rw [hp], hs⟩
  · exact Or.inr ⟨a ++ sep :: l, sep2, by rw [hp]; simp, hsep2⟩

theorem maximal_of_wordchar_runs (u : Unicode) (n : Nat) :
    ∀ (q : List Nat) (w : Str), q.length ≤ n → w ∈ wordchar_runs u q → MaximalRun u q w := by
  induction n with
  | zero =>
    intro q w hl hm
    rw [List.length_eq_zero.mp (Nat.le_zero.mp hl), wordchar_runs_nil] at hm
    cases hm
  | succ n ih =>
    intro q w hl hm
    cases q with
    | nil => rw [wordchar_runs_nil] at hm; cases hm
    | cons c rest =>
      cases hc : u.is_wordchar c with
      | false =>
        rw [wordchar_runs_skip u c rest hc] at hm
        exact MaximalRun.after u [] c rest w hc
          (ih rest w (Nat.le_of_succ_le_succ hl) hm)
      | true =>
        have hsplit : (c :: rest) = (c :: rest).takeWhile u.is_wordchar
            ++ (c :: rest).dropWhile u.is_wordchar := (List.takeWhile_append_dropWhile _ _).symm
        have hw0 : ∀ d ∈ (c :: rest).takeWhile u.is_wordchar, u.is_wordchar d = true :=
          fun d hd => List.mem_takeWhile_imp hd
        have hne0 : (c :: rest).takeWhile u.is_wordchar ≠ [] := by
          rw [List.takeWhile_cons_of_pos hc]; exact List.cons_ne_nil _ _
        have hlen : ((c :: rest).dropWhile u.is_wordchar).length ≤ n := by
          rw [List.dropWhile_cons_of_pos hc]
          have h1 := (List.dropWhile_sublist u.is_wordchar (l := rest)).length_le
          have h2 : rest.length ≤ n := Nat.le_of_succ_le_succ hl
          exact Nat.le_trans h1 h2
        generalize (c :: rest).takeWhile u.is_wordchar = w0 at hsplit hw0 hne0
        cases hd : (c :: rest).dropWhile u.is_wordchar with
        | nil =>
          rw [hd, List.append_nil] at hsplit
          rw [hsplit, wordchar_runs_word_end u w0 hne0 hw0] at hm
          rw [List.mem_singleton.mp hm, hsplit]
          exact ⟨hne0, hw0, [], [], by simp, Or.inl rfl, Or.inl rfl⟩
        | cons sep r =>
          have hsep : u.is_wordchar sep = false := by
            have h := List.head_dropWhile_not u.is_wordchar (c :: rest) (by rw [hd]; simp)
            simpa [hd] using h
          rw [hd] at hsplit hlen
          rw [hsplit, wordchar_runs_word u w0 sep r hne0 hw0 hsep] at hm
          rw [hsplit]
          rcases List.mem_cons.mp hm with he | hin
          · rw [he]
            exact ⟨hne0, hw0, [], sep :: r, by simp, Or.inl rfl, Or.inr ⟨sep, r, rfl, hsep⟩⟩
          · exact MaximalRun.after u w0 sep r w hsep
              (ih r w (Nat.le_of_succ_le hlen) hin)

theorem mem_wordchar_runs (u : Unicode) (q : List Nat) (w : Str) :
    w ∈ wordchar_runs u q ↔ MaximalRun u q w :=
  ⟨maximal_of_wordchar_runs u q.length q w (Nat.le_refl _), wordchar_runs_of_maximal u q w⟩

/-! ## The selector called twice -/

theorem push_result_of_empty (s : Internal) (h : s.result = []) : push_result s = s := by
  unfold push_result
  simp only []
  rw [if_pos (Or.inl h)]

theorem push_result_idem (s : Internal) : push_result (push_result s) = push_result s := by
  by_cases h : s.result = [] ∨ s.match_cover.length = 0
  · have he : push_result s = s := by
      unfold push_result
      simp only []
      rw [if_pos h]
    rw [he, he]
  · have h1 : s.result ≠ [] := fun e => h (Or.inl e)
    have h2 : s.match_cover ≠ [] := fun e => h (Or.inr (by rw [e]; rfl))
    exact push_result_of_empty _ (push_result_pushes s h1 h2).1

/-! ## Whole words at consecutive positions -/

theorem accept_match_highlights (q : Internal) (t : Str) (n : Nat) :
    ∃ base, (accept_match q t n).result = base ++ q.pre_match ++ t ++ q.post_match ∧
      t ∈ (accept_match q t n).match_cover := by
  have hf : ∀ x : Internal, Frame x q →
      ∃ base, (emit_match (flush_context x) t n).result
          = base ++ q.pre_match ++ t ++ q.post_match ∧
        t ∈ (emit_match (flush_context x) t n).match_cover := by
    intro x hx
    refine ⟨x.result ++ x.context.flatten, ?_, ?_⟩
    · show x.result ++ x.context.flatten ++ x.pre_match ++ t ++ x.post_match = _
      rw [hx.2.2.1, hx.2.2.2.1]
    · show t ∈ set_insert t x.match_cover
      exact (mem_set_insert t t _).mpr (Or.inr rfl)
  unfold accept_match
  simp only []
  split_ifs
  · exact hf _ ((flush_pending_frame _).trans (open_snippet_frame q))
  · exact hf _ (open_snippet_frame q)

theorem flush_pending_result (s : Internal) : (flush_pending s).result = s.result := by
  unfold flush_pending
  split_ifs <;> rfl

theorem accept_after_result (s : Internal) (t : Str) (n : Nat) :
    (accept_after s t n).result = s.result ∨ (accept_after s t n).result = s.result ++ t := by
  unfold accept_after
  split_ifs <;> first | exact Or.inl rfl | exact Or.inr rfl

theorem accept_before_result (s : Internal) (t : Str) (n : Nat) :
    (accept_before s t n).result = s.result := by
  have hf := flush_pending_result s
  unfold accept_before
  simp only []
  generalize flush_pending s = q at hf
  split_ifs <;> first | rfl | exact hf

theorem accept_match_clean (q : Internal) (t : Str) (n : Nat) (h1 : q.result = [])
    (h2 : q.context = []) (h3 : q.leading_nonword = []) (h4 : q.pending_1gram = []) :
    (accept_match q t n).result = q.pre_match ++ t ++ q.post_match := by
  have ho : open_snippet q
      = { q with result := q.result ++ q.leading_nonword, leading_nonword := [] } := by
    unfold open_snippet
    rw [if_neg (fun h => h.2 h1)]
  have hp : flush_pending (open_snippet q) = open_snippet q := by
    unfold flush_pending
    rw [if_neg (fun h => h (by rw [ho]; exact h4))]
  unfold accept_match
  simp only []
  rw [hp, ite_self, ho]
  show q.result ++ q.leading_nonword ++ q.context.flatten ++ q.pre_match ++ t ++ q.post_match
    = _
  rw [h1, h2, h3]
  rfl

theorem accept_position_clean (s : Internal) (pos n : Nat) (h2 : s.context = [])
    (h3 : s.leading_nonword = []) (h4 : s.pending_1gram = []) :
    (accept_position s pos n).context = [] ∧ (accept_position s pos n).leading_nonword = [] ∧
    (accept_position s pos n).pending_1gram = [] := by
  unfold accept_position
  simp only []
  split_ifs <;> first | exact ⟨rfl, rfl, rfl⟩ | exact ⟨h2, h3, h4⟩

/-- What one call of `accept_term` does to the snippet under construction, for any engine
and any match set: a term whose stem is in the match set is appended between `pre_match`
and `post_match` and enters the match cover; any other term leaves the result as it is or is
appended bare, and leaves the match cover as it is. -/
theorem accept_term_highlight (u : Unicode) (e : Internal) (t : Str) (pos n : Nat) :
    (apply_stemmer e (tolower_str u (apply_normalizer e t)) ∈ e.matches_ →
      ∃ base, (accept_term u e t pos n).result = base ++ e.pre_match ++ t ++ e.post_match ∧
        t ∈ (accept_term u e t pos n).match_cover) ∧
    (apply_stemmer e (tolower_str u (apply_normalizer e t)) ∉ e.matches_ →
      ((accept_term u e t pos n).result = e.result ∨
        (accept_term u e t pos n).result = e.result ++ t) ∧
      (accept_term u e t pos n).match_cover = e.match_cover) ∧
    (e.result = [] → e.context = [] → e.leading_nonword = [] → e.pending_1gram = [] →
      e.pre_match ++ e.post_match ≠ [] →
      ((accept_term u e t pos n).result = e.pre_match ++ t ++ e.post_match ↔
        apply_stemmer e (tolower_str u (apply_normalizer e t)) ∈ e.matches_)) := by
  have hf := accept_position_frame e pos n
  have hr := accept_position_result e pos n
  have hk := accept_position_kept e pos n
  have hstem := term_stem_eq u e t
  have hmatch : term_stem u e t ∈ (accept_position e pos n).matches_ →
      accept_term u e t pos n = accept_match (accept_position e pos n) t n := by
    intro h
    unfold accept_term
    simp only []
    rw [if_pos h]
  have hno : term_stem u e t ∉ (accept_position e pos n).matches_ →
      ((accept_term u e t pos n).result = e.result ∨
        (accept_term u e t pos n).result = e.result ++ t) ∧
      (accept_term u e t pos n).match_cover = e.match_cover := by
    intro h
    unfold accept_term
    simp only []
    rw [if_neg h]
    split_ifs
    · rw [(accept_after_kept _ t n).1, hk.1, ← hr]
      exact ⟨accept_after_result _ t n, rfl⟩
    · rw [(accept_before_kept _ t n).1, hk.1, accept_before_result, hr]
      exact ⟨Or.inl rfl, rfl⟩
  rw [hf.2.2.2.2.2.2, hstem] at hmatch hno
  refine ⟨fun h => ?_, hno, fun h1 h2 h3 h4 h5 => ⟨fun hres => ?_, fun h => ?_⟩⟩
  · rw [hmatch h]
    obtain ⟨base, hb, hc⟩ := accept_match_highlights (accept_position e pos n) t n
    rw [hf.2.2.1, hf.2.2.2.1] at hb
    exact ⟨base, hb, hc⟩
  · by_contra hn
    have hlen : (e.pre_match ++ t ++ e.post_match).length
        = t.length + (e.pre_match ++ e.post_match).length := by
      simp only [List.length_append]; omega
    have hpos : 0 < (e.pre_match ++ e.post_match).length :=
      List.length_pos.mpr h5
    rcases (hno hn).1 with h | h
    · rw [hres, h1] at h
      have := congrArg List.length h
      rw [hlen] at this
      simp only [List.length_nil] at this
      omega
    · rw [hres, h1, List.nil_append] at h
      have := congrArg List.length h
      rw [hlen] at this
      omega
  · rw [hmatch h]
    obtain ⟨c2, c3, c4⟩ := accept_position_clean e pos n h2 h3 h4
    rw [accept_match_clean _ t n (hr.trans h1) c2 c3 c4, hf.2.2.1, hf.2.2.2.1]

/-! ## A term restores the order of the positions -/

theorem foldl_deliver_restores (u : Unicode) (evs : List Event) :
    ∀ s : Internal, (∃ t n, Event.term t n ∈ evs) →
      (evs.foldl (deliver u) s).lastpos = (evs.foldl (deliver u) s).termpos := by
  induction evs with
  | nil => intro s h; obtain ⟨t, n, h⟩ := h; cases h
  | cons e evs ih =>
    intro s h
    rw [List.foldl_cons]
    cases e with
    | term t n =>
      apply foldl_deliver_lastpos
      show (accept_term u _ t _ n).lastpos = (accept_term u _ t _ n).termpos
      rw [accept_term_lastpos, accept_term_termpos]
    | nonword ch =>
      apply ih
      obtain ⟨t, n, h⟩ := h
      rcases List.mem_cons.mp h with h | h
      · cases h
      · exact ⟨t, n, h⟩

end Xapian

namespace Xapian

/-! # The claims -/

/-! ## Concrete scenarios -/

/-- C4 (the code at the failing input): with `add_match("PTO")`, the text
`see P.T.O. today` is returned as `see <b>pto</b> today`: the acronym rule hands the state
machine the lowered letters without the dots, and the highlighted string `pto` is not a
contiguous part of the text. -/
theorem C4_acronym_not_original :
    (get_snippets (accept_text ascii (add_match ascii Internal.fresh (str "PTO"))
        (str "see P.T.O. today"))).1 = str "see <b>pto</b> today" ∧
    tokenize ascii (str "see P.T.O. today")
      = [Event.term (str "see") 0, Event.nonword 32, Event.term (str "pto") 0,
         Event.nonword 32, Event.term (str "today") 0] ∧
    ¬ (str "pto" <:+: str "see P.T.O. today") := by
  decide

/-- C8 (the code at the failing input): two spaces before the first word reach the
snippet unchanged, because `accept_nonword_char` returns early once `leading_nonword` is
not empty; so do two spaces after the last word of an after-context. -/
theorem C8_adjacent_spaces :
    (get_snippets (accept_text ascii (add_match ascii Internal.fresh (str "fox"))
        (str "  fox"))).1 = str "  <b>fox</b>" ∧
    (get_snippets (accept_text ascii (add_match ascii Internal.fresh (str "fox"))
        (str "fox a b c d e  fox"))).1 = str "<b>fox</b> a b c d e  <b>fox</b>" := by
  decide

/-! ## Reset -/

/-- C6 (counterexample): after `add_match("fox")` the match set is `{"fox"}`; `reset()`
leaves it empty, and the text `fox` accepted after the reset gives no snippet, while the
same text without the reset is highlighted. -/
theorem C6_reset_drops_matches :
    (add_match ascii Internal.fresh (str "fox")).matches_ = [str "fox"] ∧
    (reset (add_match ascii Internal.fresh (str "fox"))).matches_
      ≠ (add_match ascii Internal.fresh (str "fox")).matches_ ∧
    (get_snippets (accept_text ascii (reset (add_match ascii Internal.fresh (str "fox")))
        (str "fox"))).1 = [] ∧
    (get_snippets (accept_text ascii (add_match ascii Internal.fresh (str "fox"))
        (str "fox"))).1 = str "<b>fox</b>" := by
  decide

/-- C6 (amended): `reset()` empties the match set and keeps `pre_match`, `post_match`,
`inter_snippet`, `context_length`, the stemmer and the normalizer; whatever text is accepted
right after a reset, `get_snippets()` returns the empty string, so a term added before the
reset is no longer highlighted. -/
theorem C6_reset_clears_matches_keeps_config (u : Unicode) (s : Internal) :
    (reset s).matches_ = [] ∧
    (reset s).pre_match = s.pre_match ∧ (reset s).post_match = s.post_match ∧
    (reset s).inter_snippet = s.inter_snippet ∧
    (reset s).context_length = s.context_length ∧
    (reset s).stemmer = s.stemmer ∧ (reset s).normalizer = s.normalizer ∧
    ∀ text : List Nat, (get_snippets (accept_text u (reset s) text)).1 = [] :=
  ⟨rfl, rfl, rfl, rfl, rfl, rfl, rfl, fun text =>
    get_snippets_blank _ (accept_text_blank u (reset s) text ⟨rfl, rfl, rfl⟩)⟩

set_option maxRecDepth 100000 in
/-- C7 (the code at the failing input): the constructor leaves `xpos` and `ignore_1grams`
with whatever values they hold, `reset()` sets both to 0, so the reset engine is the
constructed one only when both happen to be 0 (the state `Internal.fresh`).  With `xpos`
4294967294 the constructed engine returns `quick The brown <b>fox</b> jumps over the lazy
dog` for the sentence that the reset engine returns as `The quick brown <b>fox</b> jumps
over the lazy dog`; with `ignore_1grams` 7 the n-gram stream of `我爱中国人` gives
`<b>中国</b>人` where the reset engine gives `我爱<b>中国</b>人`. -/
theorem C7_constructor_leaves_fields_unset :
    (∀ x i, (Internal.constructed x i).xpos = x ∧
      (Internal.constructed x i).ignore_1grams = i) ∧
    (∀ x i, reset (Internal.constructed x i) = Internal.constructed 0 0) ∧
    (∀ x i, reset (Internal.constructed x i) = Internal.constructed x i ↔ x = 0 ∧ i = 0) ∧
    Internal.fresh = Internal.constructed 0 0 ∧
    (∀ s : Internal, reset s = fresh_like s) ∧
    (get_snippets (accept_text ascii
        (add_match ascii (Internal.constructed 4294967294 0) (str "fox"))
        (str "The quick brown fox jumps over the lazy dog"))).1
      = str "quick The brown <b>fox</b> jumps over the lazy dog" ∧
    (get_snippets (accept_text ascii
        (add_match ascii (reset (Internal.constructed 4294967294 0)) (str "fox"))
        (str "The quick brown fox jumps over the lazy dog"))).1
      = str "The quick brown <b>fox</b> jumps over the lazy dog" ∧
    (get_snippets ((ngram_stream_5 25105 29233 20013 22269 20154).foldl (deliver ascii)
        (with_matches (Internal.constructed 0 7) [str "中国"]))).1 = str "<b>中国</b>人" ∧
    (get_snippets ((ngram_stream_5 25105 29233 20013 22269 20154).foldl (deliver ascii)
        (with_matches (reset (Internal.constructed 0 7)) [str "中国"]))).1
      = str "我爱<b>中国</b>人" := by
  refine ⟨fun x i => ⟨rfl, rfl⟩, fun x i => rfl, fun x i => ⟨fun h => ?_, fun h => ?_⟩, rfl,
    fun s => rfl, by decide, by decide, by decide, by decide⟩
  · have h1 : (reset (Internal.constructed x i)).xpos = (Internal.constructed x i).xpos := by
      rw [h]
    have h2 : (reset (Internal.constructed x i)).ignore_1grams
        = (Internal.constructed x i).ignore_1grams := by rw [h]
    exact ⟨h1.symm, h2.symm⟩
  · rw [h.1, h.2]; rfl

/-! ## Result selection -/

/-- C2: starting from a reset engine, after any run of `push_result` calls
`best_matchcount` is the largest size of a match cover among the pushed results that were
not empty and had a match cover (0 when there is none), and `snippets` lists, in push
order, the pushed results whose match cover has that size; `get_snippets()`, which makes
the last push, returns their concatenation. -/
theorem C2_push_result_keeps_best (s : Internal) (ps : List (Str × List Str))
    (r : Str) (cover : List Str) :
    (push_all (reset s) ps).best_matchcount = best_of ps ∧
    (push_all (reset s) ps).snippets = best_results ps ∧
    (get_snippets { push_all (reset s) ps with result := r, match_cover := cover }).2.best_matchcount
      = best_of (ps ++ [(r, cover)]) ∧
    (get_snippets { push_all (reset s) ps with result := r, match_cover := cover }).1
      = (best_results (ps ++ [(r, cover)])).flatten := by
  have h := push_all_best (reset s) ps rfl rfl
  have h2 := push_all_best (reset s) (ps ++ [(r, cover)]) rfl rfl
  rw [push_all_append] at h2
  refine ⟨h.1, h.2, h2.1, ?_⟩
  unfold get_snippets
  simp only []
  rw [h2.2]

/-! ## Normalisation of query terms and of text tokens -/

/-- C5 (counterexample): with a normalizer that spells `z` as `s` configured, the query
term `organize` and the text token `organize` have the same image under
stemmer, lower, normalizer, yet after `add_match("organize")` the text `organize` is not
highlighted (the result stays empty): `add_match` stores `organize` without normalizing
it, `accept_term` looks up `organise`.  After `add_match("organise")` the same text is
highlighted. -/
theorem C5_normalizer_not_applied_by_add_match :
    term_stem ascii (set_normalizer Internal.fresh (some z_to_s)) (str "organize")
      = str "organise" ∧
    (add_match ascii (set_normalizer Internal.fresh (some z_to_s)) (str "organize")).matches_
      = [str "organize"] ∧
    (accept_term ascii
        (add_match ascii (set_normalizer Internal.fresh (some z_to_s)) (str "organize"))
        (str "organize") 1 0).match_cover = [] ∧
    (accept_term ascii
        (add_match ascii (set_normalizer Internal.fresh (some z_to_s)) (str "organize"))
        (str "organize") 1 0).result = [] ∧
    (get_snippets (accept_text ascii
        (add_match ascii (set_normalizer Internal.fresh (some z_to_s)) (str "organize"))
        (str "organize"))).1 = [] ∧
    (get_snippets (accept_text ascii
        (add_match ascii (set_normalizer Internal.fresh (some z_to_s)) (str "organise"))
        (str "organize"))).1 = str "<b>organize</b>" := by
  decide

/-- C5 (amended): for any engine and any match set, `accept_term` appends a term `t` whose
image `stemmer(lower(normalizer(t)))` is in the match set between `pre_match` and
`post_match` and puts it in the match cover; any other term leaves the result as it is or
is appended bare and leaves the match cover as it is; on an engine with nothing buffered
and markup that is not empty the result becomes exactly `pre_match t post_match` if and
only if the image is in the match set.  After `add_match(q)` on an engine with an empty
match set and match cover, for a query term `q` made of word characters, the match set is
`{stemmer(lower(q))}` (the normalizer is not applied to `q`), so all this holds with "is in
the match set" read as `stemmer(lower(normalizer(t))) = stemmer(lower(q))`; when no
normalizer is configured this is `stemmer(lower(t)) = stemmer(lower(q))`. -/
theorem C5_match_iff_stems_agree (u : Unicode) (s : Internal) (q t : Str) (pos n : Nat)
    (hq : q ≠ []) (hw : ∀ c ∈ q, check_wordchar u c ≠ 0)
    (hm : s.matches_ = []) (hc : s.match_cover = []) :
    (add_match u s q).matches_ = [apply_stemmer s (tolower_str u q)] ∧
    ((accept_term u (add_match u s q) t pos n).match_cover = [t] ↔
      apply_stemmer s (tolower_str u (apply_normalizer s t))
        = apply_stemmer s (tolower_str u q)) ∧
    (s.normalizer = none →
      ((accept_term u (add_match u s q) t pos n).match_cover = [t] ↔
        apply_stemmer s (tolower_str u t) = apply_stemmer s (tolower_str u q))) ∧
    (apply_stemmer s (tolower_str u (apply_normalizer s t))
        = apply_stemmer s (tolower_str u q) →
      ∃ base, (accept_term u (add_match u s q) t pos n).result
        = base ++ s.pre_match ++ t ++ s.post_match) ∧
    (apply_stemmer s (tolower_str u (apply_normalizer s t))
        ≠ apply_stemmer s (tolower_str u q) →
      ((accept_term u (add_match u s q) t pos n).result = s.result ∨
        (accept_term u (add_match u s q) t pos n).result = s.result ++ t) ∧
      (accept_term u (add_match u s q) t pos n).match_cover = []) ∧
    (s.result = [] → s.context = [] → s.leading_nonword = [] → s.pending_1gram = [] →
      s.pre_match ++ s.post_match ≠ [] →
      ((accept_term u (add_match u s q) t pos n).result = s.pre_match ++ t ++ s.post_match ↔
        apply_stemmer s (tolower_str u (apply_normalizer s t))
          = apply_stemmer s (tolower_str u q))) ∧
    (∀ e : Internal,
      (apply_stemmer e (tolower_str u (apply_normalizer e t)) ∈ e.matches_ →
        ∃ base, (accept_term u e t pos n).result = base ++ e.pre_match ++ t ++ e.post_match ∧
          t ∈ (accept_term u e t pos n).match_cover) ∧
      (apply_stemmer e (tolower_str u (apply_normalizer e t)) ∉ e.matches_ →
        ((accept_term u e t pos n).result = e.result ∨
          (accept_term u e t pos n).result = e.result ++ t) ∧
        (accept_term u e t pos n).match_cover = e.match_cover) ∧
      (e.result = [] → e.context = [] → e.leading_nonword = [] → e.pending_1gram = [] →
        e.pre_match ++ e.post_match ≠ [] →
        ((accept_term u e t pos n).result = e.pre_match ++ t ++ e.post_match ↔
          apply_stemmer e (tolower_str u (apply_normalizer e t)) ∈ e.matches_))) := by
  have ha := add_match_one_word u s q hq hw hm
  have key : (accept_term u (add_match u s q) t pos n).match_cover = [t] ↔
      apply_stemmer s (tolower_str u (apply_normalizer s t))
        = apply_stemmer s (tolower_str u q) := by
    have hc2 : (add_match u s q).match_cover = [] := by rw [ha]; exact hc
    rw [accept_term_highlights_iff u (add_match u s q) t pos n hc2, term_stem_eq, ha]
    simp only [List.mem_singleton]
    exact Iff.rfl
  obtain ⟨e1, e2, e3⟩ := accept_term_highlight u (add_match u s q) t pos n
  have hmem : apply_stemmer (add_match u s q)
        (tolower_str u (apply_normalizer (add_match u s q) t)) ∈ (add_match u s q).matches_ ↔
      apply_stemmer s (tolower_str u (apply_normalizer s t))
        = apply_stemmer s (tolower_str u q) := by
    rw [ha]
    simp only [List.mem_singleton]
    exact Iff.rfl
  have hpre : (add_match u s q).pre_match = s.pre_match := by rw [ha]
  have hpost : (add_match u s q).post_match = s.post_match := by rw [ha]
  have hres : (add_match u s q).result = s.result := by rw [ha]
  have hctx : (add_match u s q).context = s.context := by rw [ha]
  have hlead : (add_match u s q).leading_nonword = s.leading_nonword := by rw [ha]
  have hpend : (add_match u s q).pending_1gram = s.pending_1gram := by rw [ha]
  have hcov : (add_match u s q).match_cover = [] := by rw [ha]; exact hc
  rw [hmem, hpre, hpost] at e1
  rw [hmem, hres, hcov] at e2
  rw [hmem, hres, hctx, hlead, hpend, hpre, hpost] at e3
  refine ⟨by rw [ha], key, fun hn => ?_, fun h => ?_, e2, e3,
    fun e => accept_term_highlight u e t pos n⟩
  · rw [key]
    unfold apply_normalizer
    rw [hn]
  · obtain ⟨base, hb, _⟩ := e1 h
    exact ⟨base, hb⟩

/-- C5 (witness): the amended statement at the query term `fox` and the token `Fox` on a
fresh engine, where the text `Fox` is returned as `<b>Fox</b>`. -/
theorem C5_match_iff_stems_agree_witness :
    ((accept_term ascii (add_match ascii Internal.fresh (str "fox")) (str "Fox") 1 0).result
        = str "<b>Fox</b>" ∧
     (get_snippets (accept_text ascii (add_match ascii Internal.fresh (str "fox"))
        (str "Fox"))).1 = str "<b>Fox</b>") ∧
    ((add_match ascii Internal.fresh (str "fox")).matches_
      = [apply_stemmer Internal.fresh (tolower_str ascii (str "fox"))] ∧
    ((accept_term ascii (add_match ascii Internal.fresh (str "fox")) (str "Fox") 1
          0).match_cover = [str "Fox"] ↔
      apply_stemmer Internal.fresh
          (tolower_str ascii (apply_normalizer Internal.fresh (str "Fox")))
        = apply_stemmer Internal.fresh (tolower_str ascii (str "fox"))) ∧
    (Internal.fresh.normalizer = none →
      ((accept_term ascii (add_match ascii Internal.fresh (str "fox")) (str "Fox") 1
            0).match_cover = [str "Fox"] ↔
        apply_stemmer Internal.fresh (tolower_str ascii (str "Fox"))
          = apply_stemmer Internal.fresh (tolower_str ascii (str "fox")))) ∧
    (apply_stemmer Internal.fresh
          (tolower_str ascii (apply_normalizer Internal.fresh (str "Fox")))
        = apply_stemmer Internal.fresh (tolower_str ascii (str "fox")) →
      ∃ base,
        (accept_term ascii (add_match ascii Internal.fresh (str "fox")) (str "Fox") 1
            0).result
          = base ++ Internal.fresh.pre_match ++ str "Fox" ++ Internal.fresh.post_match) ∧
    (apply_stemmer Internal.fresh
          (tolower_str ascii (apply_normalizer Internal.fresh (str "Fox")))
        ≠ apply_stemmer Internal.fresh (tolower_str ascii (str "fox")) →
      ((accept_term ascii (add_match ascii Internal.fresh (str "fox")) (str "Fox") 1
            0).result = Internal.fresh.result ∨
        (accept_term ascii (add_match ascii Internal.fresh (str "fox")) (str "Fox") 1
            0).result = Internal.fresh.result ++ str "Fox") ∧
      (accept_term ascii (add_match ascii Internal.fresh (str "fox")) (str "Fox") 1
          0).match_cover = []) ∧
    (Internal.fresh.result = [] → Internal.fresh.context = [] →
      Internal.fresh.leading_nonword = [] → Internal.fresh.pending_1gram = [] →
      Internal.fresh.pre_match ++ Internal.fresh.post_match ≠ [] →
      ((accept_term ascii (add_match ascii Internal.fresh (str "fox")) (str "Fox") 1
            0).result
          = Internal.fresh.pre_match ++ str "Fox" ++ Internal.fresh.post_match ↔
        apply_stemmer Internal.fresh
            (tolower_str ascii (apply_normalizer Internal.fresh (str "Fox")))
          = apply_stemmer Internal.fresh (tolower_str ascii (str "fox")))) ∧
    (∀ e : Internal,
      (apply_stemmer e (tolower_str ascii (apply_normalizer e (str "Fox"))) ∈ e.matches_ →
        ∃ base,
          (accept_term ascii e (str "Fox") 1 0).result
            = base ++ e.pre_match ++ str "Fox" ++ e.post_match ∧
          str "Fox" ∈ (accept_term ascii e (str "Fox") 1 0).match_cover) ∧
      (apply_stemmer e (tolower_str ascii (apply_normalizer e (str "Fox"))) ∉ e.matches_ →
        ((accept_term ascii e (str "Fox") 1 0).result = e.result ∨
          (accept_term ascii e (str "Fox") 1 0).result = e.result ++ str "Fox") ∧
        (accept_term ascii e (str "Fox") 1 0).match_cover = e.match_cover) ∧
      (e.result = [] → e.context = [] → e.leading_nonword = [] → e.pending_1gram = [] →
        e.pre_match ++ e.post_match ≠ [] →
        ((accept_term ascii e (str "Fox") 1 0).result
            = e.pre_match ++ str "Fox" ++ e.post_match ↔
          apply_stemmer e (tolower_str ascii (apply_normalizer e (str "Fox")))
            ∈ e.matches_)))) :=
  ⟨by decide,
   C5_match_iff_stems_agree ascii Internal.fresh (str "fox") (str "Fox") 1 0
    (by decide) (by decide) rfl rfl⟩

/-! ## Context length -/

set_option maxRecDepth 100000 in
/-- C11 (the code at the failing input): `add_match("U.N.C.L.E")` splits at the dots and
stores `u`, `n`, `c`, `l`, `e`; `accept_text` hands over the acronym as the term `uncle` and
drops the dot after it, so nothing is highlighted and `get_snippets()` returns the empty
string, as it does with the match set `{"u.n.c.l.e"}`.  Even with `uncle` in the match set
the highlighted string is `uncle`, not `U.N.C.L.E`. -/
theorem C11_acronym_not_highlighted :
    (add_match ascii Internal.fresh (str "U.N.C.L.E")).matches_
      = [str "u", str "n", str "c", str "l", str "e"] ∧
    tokenize ascii (str "man from U.N.C.L.E. headquarters")
      = [Event.term (str "man") 0, Event.nonword 32, Event.term (str "from") 0,
         Event.nonword 32, Event.term (str "uncle") 0, Event.nonword 32,
         Event.term (str "headquarters") 0] ∧
    (get_snippets (accept_text ascii (add_match ascii Internal.fresh (str "U.N.C.L.E"))
        (str "man from U.N.C.L.E. headquarters"))).1 = [] ∧
    (get_snippets (accept_text ascii (with_matches Internal.fresh [str "u.n.c.l.e"])
        (str "man from U.N.C.L.E. headquarters"))).1 = [] ∧
    (get_snippets (accept_text ascii (add_match ascii Internal.fresh (str "uncle"))
        (str "man from U.N.C.L.E. headquarters"))).1
      = str "man from <b>uncle</b> headquarters" := by
  decide

set_option maxRecDepth 100000 in
/-- C14 (the code at the failing input): with the one query term `fox`, the text `Fox fox`
leaves the match cover `{"Fox", "fox"}` of size 2, because `accept_term` inserts the term as
written.  With the query terms `fox` and `dog` and `context_length` 1, the snippet
`<b>Fox</b> <b>fox</b> <b>FOX</b> x`, which covers one query term, is ranked 3 and the
later snippet with `fox` and `dog`, which covers two, is dropped. -/
theorem C14_match_cover_counts_spellings :
    (add_match ascii Internal.fresh (str "fox")).matches_ = [str "fox"] ∧
    (accept_text ascii (add_match ascii Internal.fresh (str "fox"))
        (str "Fox fox")).match_cover = [str "Fox", str "fox"] ∧
    (get_snippets (accept_text ascii (add_match ascii Internal.fresh (str "fox"))
        (str "Fox fox"))).2.best_matchcount = 2 ∧
    (get_snippets (accept_text ascii
        (add_match ascii (set_context_length Internal.fresh 1) (str "fox dog"))
        (str "Fox fox FOX x x x x fox dog"))).2.best_matchcount = 3 ∧
    (get_snippets (accept_text ascii
        (add_match ascii (set_context_length Internal.fresh 1) (str "fox dog"))
        (str "Fox fox FOX x x x x fox dog"))).1
      = str "<b>Fox</b> <b>fox</b> <b>FOX</b> x" := by
  decide

/-! ## The words added by `add_match` -/

/-- C15: `add_match(q)` changes the match set and no other field; the match set
afterwards holds what it held before and `stemmer(lower(w))` for every maximal run `w` of
consecutive word characters of `q` (the stemmer being the identity when none is set),
inserted in the order of the runs, which are the pieces of `q` split at the code points
that are not word characters; when `q` has no word character the engine is unchanged.  The
tables are taken not to count the code point 0 a word character. -/
theorem C15_add_match_splits_on_nonword (u : Unicode) (s : Internal) (q : List Nat)
    (h0 : u.is_wordchar 0 = false) :
    add_match u s q = with_matches s (insert_words u s (wordchar_runs u q) s.matches_) ∧
    (∀ w, w ∈ wordchar_runs u q ↔ MaximalRun u q w) ∧
    (∀ x, x ∈ (add_match u s q).matches_
      ↔ x ∈ s.matches_ ∨ ∃ w, MaximalRun u q w ∧ x = apply_stemmer s (tolower_str u w)) ∧
    ((∀ c ∈ q, u.is_wordchar c = false) → add_match u s q = s) := by
  have hr := add_match_runs u h0 s q
  have ho := add_match_only_matches u s q
  refine ⟨by rw [← hr]; exact ho, mem_wordchar_runs u q, fun x => ?_, fun hq => ?_⟩
  · rw [hr, mem_insert_words u s _ _ x]
    constructor
    · rintro (h | ⟨w, hw, h⟩)
      · exact Or.inl h
      · exact Or.inr ⟨w, (mem_wordchar_runs u q w).mp hw, h⟩
    · rintro (h | ⟨w, hw, h⟩)
      · exact Or.inl h
      · exact Or.inr ⟨w, (mem_wordchar_runs u q w).mpr hw, h⟩
  · rw [ho, hr, wordchar_runs_none u q hq]
    rfl

/-- C15 (witness): the statement at the query string ` Quick-brown  fox_1 ` on a fresh
engine, whose maximal runs of word characters are `Quick`, `brown` and `fox_1`. -/
theorem C15_add_match_splits_on_nonword_witness :
    (wordchar_runs ascii (str " Quick-brown  fox_1 ")
        = [str "Quick", str "brown", str "fox_1"] ∧
     (add_match ascii Internal.fresh (str " Quick-brown  fox_1 ")).matches_
        = [str "quick", str "brown", str "fox_1"]) ∧
    (add_match ascii Internal.fresh (str " Quick-brown  fox_1 ")
      = with_matches Internal.fresh
          (insert_words ascii Internal.fresh (wordchar_runs ascii (str " Quick-brown  fox_1 "))
            Internal.fresh.matches_) ∧
    (∀ w, w ∈ wordchar_runs ascii (str " Quick-brown  fox_1 ")
      ↔ MaximalRun ascii (str " Quick-brown  fox_1 ") w) ∧
    (∀ x, x ∈ (add_match ascii Internal.fresh (str " Quick-brown  fox_1 ")).matches_
      ↔ x ∈ Internal.fresh.matches_ ∨ ∃ w, MaximalRun ascii (str " Quick-brown  fox_1 ") w ∧
          x = apply_stemmer Internal.fresh (tolower_str ascii w)) ∧
    ((∀ c ∈ str " Quick-brown  fox_1 ", ascii.is_wordchar c = false) →
      add_match ascii Internal.fresh (str " Quick-brown  fox_1 ") = Internal.fresh)) :=
  ⟨by decide,
   C15_add_match_splits_on_nonword ascii Internal.fresh (str " Quick-brown  fox_1 ")
    (by decide)⟩

/-! ## Engines without a match -/

/-- C16: on a reset engine, and on a freshly constructed one, after any sequence of calls
none of which is `add_match` (so any sequence of `accept_text`, `increase_termpos` and
`set_termpos`, the empty one included), `get_snippets()` returns the empty string, and so
did every `get_snippets()` within the sequence. -/
theorem C16_empty_match_set (u : Unicode) (s : Internal) (ops : List Op)
    (h : ∀ op ∈ ops, op.is_add_match = false) :
    (get_snippets (run u (reset s) ops).1).1 = [] ∧
    (get_snippets (run u Internal.fresh ops).1).1 = [] ∧
    (∀ out ∈ (run u (reset s) ops).2, out = []) ∧
    (get_snippets (reset s)).1 = [] := by
  have hr : Blank (reset s) := ⟨rfl, rfl, rfl⟩
  have hf : Blank Internal.fresh := ⟨rfl, rfl, rfl⟩
  exact ⟨get_snippets_blank _ (run_blank u ops _ hr h).1,
    get_snippets_blank _ (run_blank u ops _ hf h).1,
    (run_blank u ops _ hr h).2, get_snippets_blank _ hr⟩

/-- C16 (witness): the statement at the calls `accept_text("the quick fox")`,
`increase_termpos(7)`, `set_termpos(3)`, `accept_text("fox")` on the reset of an engine that
had the match `fox`. -/
theorem C16_empty_match_set_witness :
    (get_snippets (run ascii (reset (add_match ascii Internal.fresh (str "fox")))
      [Op.accept_text (str "the quick fox"), Op.increase_termpos 7, Op.set_termpos 3,
       Op.accept_text (str "fox")]).1).1 = [] ∧
    (get_snippets (run ascii Internal.fresh
      [Op.accept_text (str "the quick fox"), Op.increase_termpos 7, Op.set_termpos 3,
       Op.accept_text (str "fox")]).1).1 = [] ∧
    (∀ out ∈ (run ascii (reset (add_match ascii Internal.fresh (str "fox")))
      [Op.accept_text (str "the quick fox"), Op.increase_termpos 7, Op.set_termpos 3,
       Op.accept_text (str "fox")]).2, out = []) ∧
    (get_snippets (reset (add_match ascii Internal.fresh (str "fox")))).1 = [] :=
  C16_empty_match_set ascii (add_match ascii Internal.fresh (str "fox"))
    [Op.accept_text (str "the quick fox"), Op.increase_termpos 7, Op.set_termpos 3,
     Op.accept_text (str "fox")] (by decide)

/-! ## Oversized terms -/

/-- C17: the calls `accept_term` that `accept_text` makes are, in order, one call
`accept_term(t, ++termpos, 0)` for every token `t` of at most 64 bytes and none for a longer
token, and `termpos` after `accept_text` is `termpos` before plus the number of these calls,
the sum being that of the 32-bit counter (it is the plain sum when that is below 2^32). -/
theorem C17_oversized_terms_dropped (u : Unicode) (s : Internal) (text : List Nat)
    (h : s.termpos < 4294967296) :
    MAX_PROB_TERM_LENGTH = 64 ∧
    (tokenize u text).filter Event.is_term
      = ((scan_tokens u text).filter (fun t => decide (str_size t ≤ 64))).map
          (fun t => Event.term t 0) ∧
    (accept_text u s text).termpos
      = (s.termpos + ((tokenize u text).filter Event.is_term).length) % 4294967296 ∧
    (s.termpos + ((scan_tokens u text).filter (fun t => decide (str_size t ≤ 64))).length
        < 4294967296 →
      (accept_text u s text).termpos
        = s.termpos
          + ((scan_tokens u text).filter (fun t => decide (str_size t ≤ 64))).length) ∧
    (∀ (pre post : List Event) (t : Str) (n : Nat),
      tokenize u text = pre ++ Event.term t n :: post →
        n = 0 ∧ str_size t ≤ 64 ∧
        (pre.foldl (deliver u) s).termpos
          = (s.termpos + (pre.filter Event.is_term).length) % 4294967296 ∧
        (pre ++ [Event.term t n]).foldl (deliver u) s
          = accept_term u
              { pre.foldl (deliver u) s with
                termpos := uadd (pre.foldl (deliver u) s).termpos 1 }
              t (uadd (pre.foldl (deliver u) s).termpos 1) 0) := by
  have ht := tokenize_terms u text
  have hp : (accept_text u s text).termpos
      = (s.termpos + ((tokenize u text).filter Event.is_term).length) % 4294967296 :=
    foldl_deliver_termpos u (tokenize u text) s h
  refine ⟨rfl, ht, hp, ?_, ?_⟩
  · intro hlt
    have hl : ((tokenize u text).filter Event.is_term).length
        = ((scan_tokens u text).filter (fun t => decide (str_size t ≤ 64))).length := by
      rw [ht]; exact List.length_map _ _
    rw [hp, hl]
    exact Nat.mod_eq_of_lt hlt
  · intro pre post t n he
    have hm : Event.term t n ∈ tokenize u text := by
      rw [he]; exact List.mem_append_right _ (List.mem_cons_self _ _)
    obtain ⟨hn, hsz⟩ := term_event_of_tokenize u text t n hm
    refine ⟨hn, hsz, foldl_deliver_termpos u pre s h, ?_⟩
    rw [List.foldl_append, hn]
    rfl

set_option maxRecDepth 100000 in
/-- C17 (witness): the statement at the text `x`, space, 65 letters `a`, space, `y`
from `termpos` 0: the long token makes no call and `termpos` ends at 2. -/
theorem C17_oversized_terms_dropped_witness :
    (scan_tokens ascii long_token_text = [str "x", List.replicate 65 97, str "y"] ∧
     tokenize ascii long_token_text
       = [Event.term (str "x") 0, Event.nonword 32, Event.nonword 32,
          Event.term (str "y") 0] ∧
     (accept_text ascii Internal.fresh long_token_text).termpos = 2) ∧
    (MAX_PROB_TERM_LENGTH = 64 ∧
    (tokenize ascii long_token_text).filter Event.is_term
      = ((scan_tokens ascii long_token_text).filter
          (fun t => decide (str_size t ≤ 64))).map (fun t => Event.term t 0) ∧
    (accept_text ascii Internal.fresh long_token_text).termpos
      = (Internal.fresh.termpos
          + ((tokenize ascii long_token_text).filter Event.is_term).length) % 4294967296 ∧
    (Internal.fresh.termpos
        + ((scan_tokens ascii long_token_text).filter
            (fun t => decide (str_size t ≤ 64))).length < 4294967296 →
      (accept_text ascii Internal.fresh long_token_text).termpos
        = Internal.fresh.termpos
          + ((scan_tokens ascii long_token_text).filter
              (fun t => decide (str_size t ≤ 64))).length) ∧
    (∀ (pre post : List Event) (t : Str) (n : Nat),
      tokenize ascii long_token_text = pre ++ Event.term t n :: post →
        n = 0 ∧ str_size t ≤ 64 ∧
        (pre.foldl (deliver ascii) Internal.fresh).termpos
          = (Internal.fresh.termpos + (pre.filter Event.is_term).length) % 4294967296 ∧
        (pre ++ [Event.term t n]).foldl (deliver ascii) Internal.fresh
          = accept_term ascii
              { pre.foldl (deliver ascii) Internal.fresh with
                termpos := uadd (pre.foldl (deliver ascii) Internal.fresh).termpos 1 }
              t (uadd (pre.foldl (deliver ascii) Internal.fresh).termpos 1) 0)) :=
  ⟨by decide, C17_oversized_terms_dropped ascii Internal.fresh long_token_text (by decide)⟩

/-! ## Invariants of the context queue and of the positions -/

/-- C18: the context queue never holds more than `context_length` entries: this holds of a
freshly constructed engine given any `context_length` (0 included) and of a reset engine,
and every `accept_term`, `accept_nonword_char`, `push_context` and `push_result` step, which
all leave `context_length` as it is, takes an engine with the bound to one with it. -/
theorem C18_context_bound (u : Unicode) (s : Internal) (t : Str) (pos n ch : Nat)
    (h : s.context.length ≤ s.context_length) :
    (∀ cl, (set_context_length Internal.fresh cl).context.length
        ≤ (set_context_length Internal.fresh cl).context_length) ∧
    (reset s).context.length ≤ (reset s).context_length ∧
    ((accept_term u s t pos n).context_length = s.context_length ∧
      (accept_term u s t pos n).context.length ≤ s.context_length) ∧
    ((accept_nonword_char u s ch pos).context_length = s.context_length ∧
      (accept_nonword_char u s ch pos).context.length ≤ s.context_length) ∧
    ((push_context s t).context_length = s.context_length ∧
      (push_context s t).context.length ≤ s.context_length) ∧
    ((push_result s).context_length = s.context_length ∧
      (push_result s).context.length ≤ s.context_length) := by
  refine ⟨fun cl => Nat.zero_le _, Nat.zero_le _, ?_, ?_, ?_, ?_⟩
  · have hf := (accept_term_frame u s t pos n).2.2.2.2.2.1
    have hb : (accept_term u s t pos n).context.length ≤ _ := accept_term_bounded u s t pos n h
    exact ⟨hf, hf ▸ hb⟩
  · have hf := (accept_nonword_char_frame u s ch pos).2.2.2.2.2.1
    have hb : (accept_nonword_char u s ch pos).context.length ≤ _ :=
      accept_nonword_char_bounded u s ch pos h
    exact ⟨hf, hf ▸ hb⟩
  · have hf := (push_context_frame s t).2.2.2.2.2.1
    have hb : (push_context s t).context.length ≤ _ := push_context_bounded s t
    exact ⟨hf, hf ▸ hb⟩
  · have hc := push_result_context s
    exact ⟨hc.2, by rw [hc.1]; exact h⟩

/-- C18 (witness): the statement at `context_length` 0, on the engine that has read
`a fox b` with the match `fox`, for the term `c` at position 4 and a space. -/
theorem C18_context_bound_witness :
    (∀ cl, (set_context_length Internal.fresh cl).context.length
        ≤ (set_context_length Internal.fresh cl).context_length) ∧
    (reset narrow_engine).context.length ≤ (reset narrow_engine).context_length ∧
    ((accept_term ascii narrow_engine (str "c") 4 0).context_length
        = narrow_engine.context_length ∧
      (accept_term ascii narrow_engine (str "c") 4 0).context.length
        ≤ narrow_engine.context_length) ∧
    ((accept_nonword_char ascii narrow_engine 32 4).context_length
        = narrow_engine.context_length ∧
      (accept_nonword_char ascii narrow_engine 32 4).context.length
        ≤ narrow_engine.context_length) ∧
    ((push_context narrow_engine (str "c")).context_length = narrow_engine.context_length ∧
      (push_context narrow_engine (str "c")).context.length ≤ narrow_engine.context_length) ∧
    ((push_result narrow_engine).context_length = narrow_engine.context_length ∧
      (push_result narrow_engine).context.length ≤ narrow_engine.context_length) :=
  C18_context_bound ascii narrow_engine (str "c") 4 0 32 (by decide)

/-- C19 (counterexample): after `accept_text("a")` on a fresh engine, `set_termpos(0)`
leaves `lastpos` 1 above `termpos` 0, and so does `increase_termpos(4294967295)`, which
wraps the 32-bit counter. -/
theorem C19_set_termpos_below_lastpos :
    (set_termpos (accept_text ascii Internal.fresh (str "a")) 0).lastpos = 1 ∧
    (set_termpos (accept_text ascii Internal.fresh (str "a")) 0).termpos = 0 ∧
    (increase_termpos (accept_text ascii Internal.fresh (str "a")) 4294967295).lastpos = 1 ∧
    (increase_termpos (accept_text ascii Internal.fresh (str "a")) 4294967295).termpos = 0 := by
  decide

/-- C19 (amended): `lastpos ≤ termpos` holds of a freshly constructed engine, whatever its
uninitialised members hold, and is kept by `add_match`, `accept_text`, `get_snippets` and
`reset`; `increase_termpos(delta)` keeps it exactly when
`lastpos ≤ (termpos + delta) mod 2^32`, in particular when `termpos + delta` stays below
2^32, and `set_termpos(p)` keeps it exactly when `lastpos ≤ p`.  From any state, an
`accept_text` that hands over at least one term leaves `lastpos = termpos`. -/
theorem C19_position_order (u : Unicode) (s : Internal) (h : s.lastpos ≤ s.termpos) :
    Internal.fresh.lastpos ≤ Internal.fresh.termpos ∧
    (∀ q, (add_match u s q).lastpos ≤ (add_match u s q).termpos) ∧
    (∀ text, (accept_text u s text).lastpos ≤ (accept_text u s text).termpos) ∧
    (get_snippets s).2.lastpos ≤ (get_snippets s).2.termpos ∧
    (reset s).lastpos ≤ (reset s).termpos ∧
    (∀ delta, s.termpos + delta < 4294967296 →
      (increase_termpos s delta).lastpos ≤ (increase_termpos s delta).termpos) ∧
    (∀ p, (set_termpos s p).lastpos ≤ (set_termpos s p).termpos ↔ s.lastpos ≤ p) ∧
    (∀ x i, (Internal.constructed x i).lastpos ≤ (Internal.constructed x i).termpos) ∧
    (∀ delta, (increase_termpos s delta).lastpos ≤ (increase_termpos s delta).termpos ↔
      s.lastpos ≤ (s.termpos + delta) % 4294967296) ∧
    (∀ (e : Internal) (text : List Nat), (∃ t n, Event.term t n ∈ tokenize u text) →
      (accept_text u e text).lastpos = (accept_text u e text).termpos) := by
  refine ⟨Nat.le_refl _, ?_, ?_, ?_, Nat.le_refl _, ?_, fun p => Iff.rfl,
    fun x i => Nat.le_refl _, fun delta => Iff.rfl,
    fun e text ht => foldl_deliver_restores u (tokenize u text) e ht⟩
  · intro q
    rw [(add_match_positions u s q).1, (add_match_positions u s q).2]
    exact h
  · intro text
    exact foldl_deliver_order u (tokenize u text) s h
  · show (push_result s).lastpos ≤ (push_result s).termpos
    rw [push_result_lastpos, push_result_termpos]
    exact h
  · intro delta hd
    show s.lastpos ≤ uadd s.termpos delta
    unfold uadd
    rw [Nat.mod_eq_of_lt hd]
    omega

/-- C19 (witness): the amended statement on the engine that has read `a b` and was moved
on by `increase_termpos(3)`; `increase_termpos(5)` and then `increase_termpos(4294967295)`
on a fresh engine wrap `termpos` to 4, which is not below `lastpos` 0. -/
theorem C19_position_order_witness :
    (increase_termpos (increase_termpos Internal.fresh 5) 4294967295).termpos = 4 ∧
    (Internal.fresh.lastpos ≤ Internal.fresh.termpos ∧
    (∀ q, (add_match ascii moved_engine q).lastpos ≤ (add_match ascii moved_engine q).termpos) ∧
    (∀ text, (accept_text ascii moved_engine text).lastpos
      ≤ (accept_text ascii moved_engine text).termpos) ∧
    (get_snippets moved_engine).2.lastpos ≤ (get_snippets moved_engine).2.termpos ∧
    (reset moved_engine).lastpos ≤ (reset moved_engine).termpos ∧
    (∀ delta, moved_engine.termpos + delta < 4294967296 →
      (increase_termpos moved_engine delta).lastpos
        ≤ (increase_termpos moved_engine delta).termpos) ∧
    (∀ p, (set_termpos moved_engine p).lastpos ≤ (set_termpos moved_engine p).termpos
      ↔ moved_engine.lastpos ≤ p) ∧
    (∀ x i, (Internal.constructed x i).lastpos ≤ (Internal.constructed x i).termpos) ∧
    (∀ delta, (increase_termpos moved_engine delta).lastpos
        ≤ (increase_termpos moved_engine delta).termpos ↔
      moved_engine.lastpos ≤ (moved_engine.termpos + delta) % 4294967296) ∧
    (∀ (e : Internal) (text : List Nat), (∃ t n, Event.term t n ∈ tokenize ascii text) →
      (accept_text ascii e text).lastpos = (accept_text ascii e text).termpos)) :=
  ⟨by decide, C19_position_order ascii moved_engine (by decide)⟩

/-! ## After-context at a discontinuity -/

set_option maxRecDepth 100000 in
/-- C20 (the code at the failing input): after `accept_text("fox")`, `increase_termpos(3)`
and `accept_text("a")` with the default `context_length` 5, the word `a` of the second text
is appended to the snippet as after-context of `fox`: the discontinuity clears the context
queue but leaves the horizon open.  Likewise `c` of `c d e` follows `b` of `a fox b`. -/
theorem C20_after_context_crosses_gap :
    (get_snippets (accept_text ascii
        (increase_termpos (accept_text ascii (add_match ascii Internal.fresh (str "fox"))
          (str "fox")) 3)
        (str "a"))).1 = str "<b>fox</b>a" ∧
    (get_snippets (accept_text ascii
        (increase_termpos (accept_text ascii (add_match ascii Internal.fresh (str "fox"))
          (str "a fox b")) 3)
        (str "c d e"))).1 = str "a <b>fox</b> bc" := by
  decide

/-! ## N-gram characters -/

set_option maxRecDepth 100000 in
/-- C21 (the code at the failing input): with the default configuration and the match set
`{"一二", "九十"}`, the n-gram stream of the run `一二三四五六七八九十` yields
`<b>一二</b>三四五六七一八<b>九十</b>`: the 1-gram `一`, pending when the 2-gram `一二`
matched, is kept, pushed into the context when the next 1-gram arrives behind the horizon,
and flushed into the result in front of `八`.  With the match set `{"一二", "二"}` the run
`一二` yields `<b>一二</b>一<b>二</b>`. -/
theorem C21_pending_1gram_emitted_later :
    ngram_stream (str "一二") = [Event.term (str "一") 1, Event.term (str "一二") 2,
      Event.term (str "二") 1] ∧
    ((ngram_stream (str "一二")).foldl (deliver ascii)
        (with_matches Internal.fresh [str "一二", str "九十"])).pending_1gram = str "一" ∧
    (get_snippets ((ngram_stream (str "一二三四五六七八九十")).foldl (deliver ascii)
        (with_matches Internal.fresh [str "一二", str "九十"]))).1
      = str "<b>一二</b>三四五六七一八<b>九十</b>" ∧
    (get_snippets ((ngram_stream (str "一二")).foldl (deliver ascii)
        (with_matches Internal.fresh [str "一二", str "二"]))).1
      = str "<b>一二</b>一<b>二</b>" := by
  decide

/-! ## Code points consumed by the scanner -/

set_option maxRecDepth 100000 in
/-- C22 (the code at the failing input): the scanner makes no call for the `+` of
`fish+chips` (the suffix is rolled back in the term, the iterator stays behind it), for
three of the four `+` of `C++++`, and for the two dots of `U.N.`: these code points are
neither in a term nor handed to `accept_nonword_char`, and the snippet of `fish+chips` for
the match `chips` reads `fish<b>chips</b>`. -/
theorem C22_suffix_and_dots_consumed :
    tokenize ascii (str "fish+chips")
      = [Event.term (str "fish") 0, Event.term (str "chips") 0] ∧
    tokenize ascii (str "C++++ x")
      = [Event.term (str "C") 0, Event.nonword 43, Event.nonword 32,
         Event.term (str "x") 0] ∧
    tokenize ascii (str "a U.N. b")
      = [Event.term (str "a") 0, Event.nonword 32, Event.term (str "un") 0,
         Event.nonword 32, Event.term (str "b") 0] ∧
    (get_snippets (accept_text ascii (add_match ascii Internal.fresh (str "chips"))
        (str "fish+chips"))).1 = str "fish<b>chips</b>" := by
  decide

/-! ## The queue of snippets -/

set_option maxRecDepth 100000 in
/-- C23 (the code at the failing input): after `add_match("fox")`, `accept_text("fox")`,
`get_snippets()`, `accept_text("fox")`, `get_snippets()` the queue holds `<b>fox</b>`
twice: its second member does not begin with `inter_snippet`, and the second call returns
`<b>fox</b><b>fox</b>`.  The same holds with `increase_termpos(100)` before the second
text. -/
theorem C23_queue_member_without_separator :
    (run ascii (add_match ascii Internal.fresh (str "fox"))
      [Op.accept_text (str "fox"), Op.get_snippets, Op.accept_text (str "fox"),
       Op.get_snippets]).1.snippets = [str "<b>fox</b>", str "<b>fox</b>"] ∧
    (run ascii (add_match ascii Internal.fresh (str "fox"))
      [Op.accept_text (str "fox"), Op.get_snippets, Op.accept_text (str "fox"),
       Op.get_snippets]).1.inter_snippet = str "..." ∧
    (∃ r ∈ (run ascii (add_match ascii Internal.fresh (str "fox"))
      [Op.accept_text (str "fox"), Op.get_snippets, Op.accept_text (str "fox"),
       Op.get_snippets]).1.snippets.tail, ¬ (str "..." <+: r)) ∧
    (run ascii (add_match ascii Internal.fresh (str "fox"))
      [Op.accept_text (str "fox"), Op.get_snippets, Op.accept_text (str "fox"),
       Op.get_snippets]).2 = [str "<b>fox</b>", str "<b>fox</b><b>fox</b>"] ∧
    (run ascii (add_match ascii Internal.fresh (str "fox"))
      [Op.accept_text (str "fox"), Op.get_snippets, Op.increase_termpos 100,
       Op.accept_text (str "fox"), Op.get_snippets]).1.snippets
      = [str "<b>fox</b>", str "<b>fox</b>"] := by
  refine ⟨by decide, by decide, ⟨str "<b>fox</b>", by decide, by decide⟩, by decide,
    by decide⟩

/-! ## Contiguous snippets -/

/-- C25: for every engine state, a second `get_snippets()` right after the first returns
the same string and leaves the whole engine as the first call left it. -/
theorem C25_get_snippets_idempotent (s : Internal) :
    (get_snippets (get_snippets s).2).1 = (get_snippets s).1 ∧
    (get_snippets (get_snippets s).2).2 = (get_snippets s).2 := by
  have h : push_result (push_result s) = push_result s := push_result_idem s
  unfold get_snippets
  simp only []
  rw [h]
  exact ⟨rfl, rfl⟩

end Xapian
